import Mathlib

/-!
Verification development for the PyChunkedGraph repository.

The definitions below are shallow embeddings of the Python sources:

* `PCG.Utils.*`   — `pychunkedgraph/graph/edges/utils.py`
* `PCG.Jobs.*`    — `pychunkedgraph/jobs/ingestion.py`
* `PCG.Ingest.*`  — `pychunkedgraph/ingest/main.py`
* `PCG.Cg.*`      — `pychunkedgraph/graph/chunkedgraph.py`
* `PCG.Legacy.*`  — `src/pychunkedgraph/chunkedgraph.py` (the flat legacy module)

Node IDs are modelled as `Nat`, numpy arrays of IDs as `List Nat`, and `n x 2`
edge arrays as `List (Nat × Nat)`.  Boolean-mask selection on parallel numpy
arrays is modelled as `List.filter` with the per-element predicate that
produced the mask.  Storage reads are pure maps passed in as arguments; code
paths that raise Python exceptions return `none` / `.error`.
-/

namespace PCG

/-- Graph metadata: the fields of `ChunkedGraphMeta` used by the edge utilities
(`meta.layer_count` and `meta.graph_config.FANOUT`). -/
structure GraphMeta where
  layer_count : Nat
  fanout : Nat

/-- Modelled from the spec: the node-ID codec (`pychunkedgraph/graph/chunks/utils.py`
is not among the provided sources).  Per the spec the 64-bit ID packs, most
significant first, an 8-bit layer, the chunk x, y, z fields and the segment; here
the chunk fields are 8 bits each and the segment occupies the low 32 bits.
`nodeLayer` extracts the layer field (`get_chunk_layer`). -/
def nodeLayer (n : Nat) : Nat := n / 2 ^ 56

/-- Modelled from the spec: chunk coordinate extraction
(`get_chunk_coordinates` of the missing codec module). -/
def nodeCoords (n : Nat) : Nat × Nat × Nat :=
  (n / 2 ^ 48 % 2 ^ 8, n / 2 ^ 40 % 2 ^ 8, n / 2 ^ 32 % 2 ^ 8)

/-- Modelled from the spec: `encode(layer, cx, cy, cz, seg)` of the missing codec. -/
def encodeId (l x y z s : Nat) : Nat :=
  l * 2 ^ 56 + x * 2 ^ 48 + y * 2 ^ 40 + z * 2 ^ 32 + s

/-- Componentwise floor division of chunk coordinates by the fanout
(`coords // meta.graph_config.FANOUT`). -/
def divCoords (F : Nat) (c : Nat × Nat × Nat) : Nat × Nat × Nat :=
  (c.1 / F, c.2.1 / F, c.2.2 / F)

/-- Chunk coordinates after `k` rounds of floor division by the fanout. -/
def divIter (F : Nat) : Nat → Nat × Nat × Nat → Nat × Nat × Nat
  | 0, c => c
  | k + 1, c => divIter F k (divCoords F c)

namespace Utils

/-- Loop body of `get_cross_chunk_edges_layer` for a single edge: the loop runs
`range(2, meta.layer_count)`, incrementing the edge's entry while the two
coordinate triples differ (`edge_diff > 0`), then floor-divides both triples by
the fanout.  `it` is the number of remaining iterations, `acc` the entry of
`cross_chunk_edge_layers` (initialised to 1). -/
def edgeLayerAux (F : Nat) : Nat → Nat × Nat × Nat → Nat × Nat × Nat → Nat → Nat
  | 0, _, _, acc => acc
  | it + 1, c0, c1, acc =>
      edgeLayerAux F it (divCoords F c0) (divCoords F c1) (if c0 ≠ c1 then acc + 1 else acc)

/-- Crossing layer of one edge, as computed by `get_cross_chunk_edges_layer`
(`np.sum(np.abs(coords0 - coords1)) > 0` is coordinate inequality). -/
def edgeLayer (meta : GraphMeta) (e : Nat × Nat) : Nat :=
  edgeLayerAux meta.fanout (meta.layer_count - 2) (nodeCoords e.1) (nodeCoords e.2) 1

/-- Source `get_cross_chunk_edges_layer` (edges/utils.py): the vectorised loop
treats every edge independently, so it is the per-edge computation mapped over
the list; an empty input yields an empty array. -/
def get_cross_chunk_edges_layer (meta : GraphMeta) (cross_edges : List (Nat × Nat)) :
    List Nat :=
  cross_edges.map fun e => edgeLayer meta e

/-- Source `categorize_edges` (edges/utils.py).  `mask1`/`mask2` are
`np.isin(node_ids1, supervoxels)` / `np.isin(node_ids2, supervoxels)`;
`in_mask = mask1 & mask2`, `out_mask = mask1 & ~mask2`; the out edges are then
split by `edge_layers > 1`. -/
def categorize_edges (meta : GraphMeta) (supervoxels : List Nat)
    (edges : List (Nat × Nat)) :
    List (Nat × Nat) × List (Nat × Nat) × List (Nat × Nat) :=
  let in_edges := edges.filter fun e =>
    decide (e.1 ∈ supervoxels) && decide (e.2 ∈ supervoxels)
  let all_out_edges := edges.filter fun e =>
    decide (e.1 ∈ supervoxels) && !(decide (e.2 ∈ supervoxels))
  let out_edges := all_out_edges.filter fun e => !(decide (1 < edgeLayer meta e))
  let cross_edges := all_out_edges.filter fun e => decide (1 < edgeLayer meta e)
  (in_edges, out_edges, cross_edges)

end Utils

namespace Jobs

/-- Source `_get_children_coords` (jobs/ingestion.py): for each
`dcoord ∈ product(range(fan_out), repeat=3)` the candidate child coordinate is
`parent_coords * fan_out + dcoord`, kept when it is componentwise below the
layer bounds. -/
def _get_children_coords (F : Nat) (layerBounds : Nat × Nat × Nat)
    (parentCoords : Nat × Nat × Nat) : List (Nat × Nat × Nat) :=
  ((List.range F).flatMap fun dx =>
    (List.range F).flatMap fun dy =>
      (List.range F).map fun dz =>
        (parentCoords.1 * F + dx, parentCoords.2.1 * F + dy, parentCoords.2.2 * F + dz)
  ).filter fun c =>
    decide (c.1 < layerBounds.1) && decide (c.2.1 < layerBounds.2.1) &&
      decide (c.2.2 < layerBounds.2.2)

/-- Source `enqueue_parent_tasks` (jobs/ingestion.py), the parent-chunk
derivation for a completed chunk `(layer, x, y, z)`:
`layer += 1; x, y, z = [x, y, z] // fan_out`. -/
def parentOfCompleted (F : Nat) (chunk : Nat × (Nat × Nat × Nat)) :
    Nat × (Nat × Nat × Nat) :=
  (chunk.1 + 1, divCoords F chunk.2)

end Jobs

namespace Ingest

/-- Source `_enqueue_parent` (ingest/main.py), the body under the per-parent
lock for a single parent id.  The shared counter for the parent is `none` when
`parent.id not in parent_children_count_d_shared` (then initialised to
`len(parent.children_coords)`), it is decremented, and on reaching zero the
entry is deleted and the parent task is put on the queue (`queued` counts the
puts).  Returns the new counter entry, the new queue count, and the
function's return value (`True` exactly when the parent was enqueued). -/
def _enqueue_parent (counter : Option Int) (childrenCount : Nat) (queued : Nat) :
    Option Int × Nat × Bool :=
  let c0 : Int := match counter with
    | none => (childrenCount : Int)
    | some c => c
  let c1 := c0 - 1
  if c1 = 0 then (none, queued + 1, true) else (some c1, queued, false)

/-- Shared-map entry and queue count after `k` completion calls for one parent,
starting from an absent entry and an empty queue. -/
def enqueueState (childrenCount : Nat) : Nat → Option Int × Nat
  | 0 => (none, 0)
  | k + 1 =>
      let s := enqueueState childrenCount k
      let r := _enqueue_parent s.1 childrenCount s.2
      (r.1, r.2.1)

/-- Return value of the `k`-th completion call (`k ≥ 1`). -/
def enqueueResult (childrenCount : Nat) (k : Nat) : Bool :=
  let s := enqueueState childrenCount (k - 1)
  (_enqueue_parent s.1 childrenCount s.2).2.2

end Ingest

namespace Cg

/-- One vectorised parent-lookup step of `get_roots` (graph/chunkedgraph.py):
`temp_ids = self.get_parents(np.unique(parent_ids[layer_mask]))` scattered back
through the `np.unique` inverse is, elementwise, the parent of every masked
entry; unmasked entries keep their value.  When no entry is masked (or no
masked id has a parent row) `get_parents` returns a plain empty list and
`temp[layer_mask] = temp_ids[inverse]` raises `TypeError`; a masked entry
missing from a non-empty read raises `KeyError`.  All these exceptions are
modelled as `none`. -/
def stepIds (p : Nat → Option Nat) (ids : List Nat) (mask : List Bool) :
    Option (List Nat) :=
  if mask.any fun b => b then
    (ids.zip mask).mapM fun xm => if xm.2 then p xm.1 else some xm.1
  else none

/-- Result of the inner `for _ in range(int(stop_layer + 1))` loop of
`get_roots`: either an explicit `return` with a value, or falling through the
loop with the final `parent_ids`. -/
inductive InnerRes
  | ret (l : List Nat)
  | fall (l : List Nat)
deriving DecidableEq

/-- Inner loop of source `get_roots`: each iteration replaces the masked
entries with their parents; when no entry of `temp` is below `stop_layer` it
returns `temp`, unless `ceil` is false and some entry exceeds `stop_layer`, in
which case it returns the previous iterate `parent_ids`; otherwise it commits
`temp` and clears the mask of entries at `>= stop_layer`. -/
def getRootsInner (p : Nat → Option Nat) (stop : Nat) (ceil : Bool) :
    Nat → List Nat → List Bool → Option InnerRes
  | 0, ids, _ => some (.fall ids)
  | fuel + 1, ids, mask =>
    match stepIds p ids mask with
    | none => none
    | some temp =>
      if !(temp.any fun x => decide (nodeLayer x < stop)) then
        if ceil || !(temp.any fun x => decide (stop < nodeLayer x)) then
          some (.ret temp)
        else
          some (.ret ids)
      else
        getRootsInner p stop ceil fuel temp
          (List.zipWith (fun m x => m && !(decide (stop ≤ nodeLayer x))) mask temp)

/-- Source `get_roots` (graph/chunkedgraph.py): per try, the mask and
`parent_ids` are reset and the inner loop runs `stop_layer + 1` times; after a
fall-through the vector is returned if nothing is below `stop_layer`, else the
next try starts.  The last try returns its `parent_ids` either way.  `tries = 0`
leaves `parent_ids` unbound in the source (`NameError`), modelled as `none`. -/
def get_roots (p : Nat → Option Nat) (stop : Nat) (ceil : Bool)
    (node_ids : List Nat) : Nat → Option (List Nat)
  | 0 => none
  | 1 =>
    match getRootsInner p stop ceil (stop + 1) node_ids
        (node_ids.map fun x => decide (nodeLayer x < stop)) with
    | none => none
    | some (.ret l) => some l
    | some (.fall l) => some l
  | tries + 2 =>
    match getRootsInner p stop ceil (stop + 1) node_ids
        (node_ids.map fun x => decide (nodeLayer x < stop)) with
    | none => none
    | some (.ret l) => some l
    | some (.fall l) =>
        if !(l.any fun x => decide (nodeLayer x < stop)) then some l
        else get_roots p stop ceil node_ids (tries + 1)

/-- Inner for-loop of source `get_root` (graph/chunkedgraph.py), which runs
`range(get_chunk_layer(node_id), stop_layer + 1)` times: fetch the parent,
stop on a missing parent, commit the parent and stop once its layer reaches
`stop_layer`. -/
def chaseUp (p : Nat → Option Nat) (stop : Nat) : Nat → Nat → Nat
  | 0, cur => cur
  | fuel + 1, cur =>
    match p cur with
    | none => cur
    | some q => if stop ≤ nodeLayer q then q else chaseUp p stop fuel q

/-- Retry loop of source `get_root`: each try restarts the walk at `node`;
the loop breaks early when the walk reached `stop_layer`, and after the last
try the final `parent_id` is kept.  With `tries = 0` the loop body never runs
and `parent_id` is still `node`. -/
def tryChase (p : Nat → Option Nat) (stop node : Nat) : Nat → Nat
  | 0 => node
  | 1 => chaseUp p stop (stop + 1 - nodeLayer node) node
  | tries + 2 =>
    let r := chaseUp p stop (stop + 1 - nodeLayer node) node
    if stop ≤ nodeLayer r then r else tryChase p stop node (tries + 1)

/-- Source `get_root` (graph/chunkedgraph.py): early return when the node's
layer equals `stop_layer`; otherwise walk with retries and raise
`RootNotFound` (modelled `.error ()`) when the final node's layer is still
below `stop_layer`. -/
def get_root (p : Nat → Option Nat) (node stop tries : Nat) : Except Unit Nat :=
  if nodeLayer node = stop then .ok node
  else
    let fin := tryChase p stop node tries
    if nodeLayer fin < stop then .error () else .ok fin

/-- Iterated parent lookup: the ancestor of `x` after `k` parent steps, when
every step has a parent. -/
def parIter (p : Nat → Option Nat) : Nat → Nat → Option Nat
  | 0, x => some x
  | k + 1, x =>
    match p x with
    | none => none
    | some y => parIter p k y

/-- The parent chain of `x` reaches `r` after exactly `k` steps, `r` lies at
layer `stop`, and every node strictly before `r` on the chain lies below
`stop`; i.e. `r` is the first ancestor of `x` at layer `stop`. -/
def HitsAtK (p : Nat → Option Nat) (stop x r k : Nat) : Prop :=
  parIter p k x = some r ∧ nodeLayer r = stop ∧
    ∀ j < k, ∃ y, parIter p j x = some y ∧ nodeLayer y < stop

/-- The parent chain of `x` has a first ancestor at layer exactly `stop`,
namely `r`. -/
def HitsAt (p : Nat → Option Nat) (stop x r : Nat) : Prop :=
  ∃ k, HitsAtK p stop x r k

/-- Elementwise effect of one `get_roots` iteration: entries below `stop`
move to their parent, others are left untouched. -/
def stepRoots (p : Nat → Option Nat) (stop : Nat) (x : Nat) : Nat :=
  if nodeLayer x < stop then (p x).getD 0 else x

/-- Storage model for the `Hierarchy.Parent` column: `store id` is the list of
parent cell values of row `id`, newest first.  Modelled from the spec: the
storage adapter (`graph/client/bigtable.py`, not among the provided sources)
returns cells latest-first, and `read_nodes` returns only rows that have
cells. -/
def read_nodes (store : Nat → List Nat) (ids : List Nat) : List (Nat × List Nat) :=
  (ids.filter fun i => !(store i).isEmpty).map fun i => (i, store i)

/-- Source `get_parents` (graph/chunkedgraph.py), `raw_only`/cache-disabled
path with `current=True`: an empty read returns the plain empty list, else the
newest parent `parent_rows[id_][0].value` is taken for every input id; a
missing row raises `KeyError`, modelled as `none`. -/
def get_parents (store : Nat → List Nat) (node_ids : List Nat) :
    Option (List Nat) :=
  let parent_rows := read_nodes store node_ids
  if parent_rows.isEmpty then some []
  else node_ids.mapM fun i => (parent_rows.lookup i).bind List.head?

/-- Source `get_children` (graph/chunkedgraph.py), scalar cache-disabled path:
`store id` is the `Hierarchy.Child` cell of row `id` (`none` when the column is
absent); an absent column yields the empty array. -/
def get_children (store : Nat → Option (List Nat)) (node_id : Nat) : List Nat :=
  match store node_id with
  | none => []
  | some v => v

/-- Source `_get_children_multiple`: every requested id is mapped, ids missing
from the read fall back to the empty array. -/
def _get_children_multiple (store : Nat → Option (List Nat))
    (node_ids : List Nat) : List (Nat × List Nat) :=
  node_ids.map fun x => (x, get_children store x)

/-- Source `get_children` with `flatten=True`: concatenation of the per-id
children (an empty dict short-circuits to the empty array). -/
def get_children_flat (store : Nat → Option (List Nat)) (node_ids : List Nat) :
    List Nat :=
  ((_get_children_multiple store node_ids).map fun kv => kv.2).flatten

end Cg

namespace Legacy

/-- Row state of the legacy BigTable-backed graph
(`src/pychunkedgraph/chunkedgraph.py`): for every node id, the current
`parents` cell (reads take the newest value at or before now), the `children`
cell, the `new_parents` and `former_parents` cells, and the appended
`atomic_partners` cells.  All reads in `add_edge` happen before the single
`mutate_rows` commit, so the pre-edit table is read and the mutations are
applied on top of it. -/
structure Table where
  parent : Nat → Option Nat
  children : Nat → List Nat
  newParents : Nat → Option (List Nat)
  formerParents : Nat → Option (List Nat)
  atomicPartners : Nat → List Nat

def setParent (t : Table) (n v : Nat) : Table :=
  { t with parent := fun x => if x = n then some v else t.parent x }

def setChildren (t : Table) (n : Nat) (cs : List Nat) : Table :=
  { t with children := fun x => if x = n then cs else t.children x }

def setNewParents (t : Table) (n : Nat) (v : List Nat) : Table :=
  { t with newParents := fun x => if x = n then some v else t.newParents x }

def setFormerParents (t : Table) (n : Nat) (v : List Nat) : Table :=
  { t with formerParents := fun x => if x = n then some v else t.formerParents x }

def addAtomic (t : Table) (n v : Nat) : Table :=
  { t with atomicPartners := fun x => if x = n then v :: t.atomicPartners x else t.atomicPartners x }

/-- Chunk id of a legacy node id: the high 32 bits
(`np.frombuffer(node_id, dtype=np.uint32)[1]` on a little-endian uint64;
`test_if_nodes_are_in_same_chunk` compares these, and `find_unique_node_id`
builds ids as `(chunk_id << 32) + segment`). -/
def chunkOf (n : Nat) : Nat := n / 2 ^ 32

/-- Source `get_root` (legacy chunkedgraph.py): follow the `parents` cells
until a node has none and return that node.  The fuel argument models
termination of the unbounded `while True`; `none` means the walk did not
finish within the fuel. -/
def get_root (t : Table) : Nat → Nat → Option Nat
  | 0, _ => none
  | fuel + 1, n =>
    match t.parent n with
    | none => some n
    | some q => get_root t fuel q

/-- First `while` loop of legacy `add_edge`: walk both parents up until they
lie in the same chunk.  A missing parent on the way crashes the source
(`np.frombuffer(None)`), modelled as `none`. -/
def walkSame (t : Table) : Nat → Nat × Nat → Option (Nat × Nat)
  | 0, _ => none
  | fuel + 1, pq =>
    if chunkOf pq.1 = chunkOf pq.2 then some pq
    else
      match t.parent pq.1, t.parent pq.2 with
      | some a, some b => walkSame t fuel (a, b)
      | _, _ => none

/-- Main `while parent_ids[0] is not None and ...` loop of legacy `add_edge`.
`ca`/`cb` are the fixed `circumnvented_nodes` (the initial same-chunk
ancestors), `r1`/`r2` the `original_parents` roots, `acc` the accumulated row
mutations applied to the table, `pq` the current pair of old parents, `nid`
the current `new_parent_id` and `supply` the ids the subsequent
`find_unique_node_id` calls return.  Each iteration repoints the filtered
children of both old parents to `nid` and writes `nid`'s `children` cell; if
both old parents have parents the loop allocates the next new id and links
`nid` to it, otherwise it writes `former_parents` on `nid` and `new_parents`
on both original roots and stops, returning the final table and the last new
id. -/
def mergeLoop (t : Table) (r1 r2 ca cb : Nat) :
    Nat → Table → Nat × Nat → List Nat → Nat → Option (Table × Nat)
  | 0, _, _, _, _ => none
  | fuel + 1, acc, pq, supply, nid =>
    let cs := ((t.children pq.1).filter fun c => !(c = ca : Bool) && !(c = cb : Bool)) ++
              ((t.children pq.2).filter fun c => !(c = ca : Bool) && !(c = cb : Bool))
    let acc1 := cs.foldl (fun a c => setParent a c nid) acc
    let acc2 := setChildren acc1 nid cs
    match t.parent pq.1, t.parent pq.2 with
    | some pa, some pb =>
      match supply with
      | [] => none
      | nid2 :: rest =>
          mergeLoop t r1 r2 ca cb fuel (setParent acc2 nid nid2) (pa, pb) rest nid2
    | _, _ =>
      some (setNewParents (setNewParents (setFormerParents acc2 nid [r1, r2]) r1 [nid])
              r2 [nid], nid)

/-- Source `add_edge` (legacy chunkedgraph.py) for an atomic edge `(u, v)`
with `is_cg_id=True`: find the same-chunk ancestors of the two parents,
record the two current roots, run the merge loop with fresh ids from
`supply` (modelling the ids produced by `find_unique_node_id`, which retries
until it finds an id with no row), then append the atomic-partner cells for
`u` and `v`.  Returns the post-commit table and the new root id. -/
def add_edge (t : Table) (u v : Nat) (supply : List Nat) (fuel : Nat) :
    Option (Table × Nat) :=
  match t.parent u, t.parent v with
  | some p0, some p1 =>
    match walkSame t fuel (p0, p1) with
    | some ab =>
      match get_root t fuel ab.1, get_root t fuel ab.2 with
      | some r1, some r2 =>
        match supply with
        | nid :: rest =>
          match mergeLoop t r1 r2 ab.1 ab.2 fuel t ab rest nid with
          | some tr => some (addAtomic (addAtomic tr.1 u v) v u, tr.2)
          | none => none
        | [] => none
      | _, _ => none
    | none => none
  | _, _ => none

/-- The old parent nodes visited by `mergeLoop` from the pair `pq` with the
given fuel: both components of every pair on the lockstep parent walk. -/
def processed (t : Table) : Nat → Nat × Nat → List Nat
  | 0, _ => []
  | fuel + 1, pq =>
    pq.1 :: pq.2 ::
      (match t.parent pq.1, t.parent pq.2 with
       | some a, some b => processed t fuel (a, b)
       | _, _ => [])

/-- Parent-chain path: `PathTo t x ys a` says the `parents` cells lead from
`x` through the nodes of `ys` in order to `a`. -/
def PathTo (t : Table) : Nat → List Nat → Nat → Prop
  | x, [], a => t.parent x = some a
  | x, y :: ys, a => t.parent x = some y ∧ PathTo t y ys a

/-- Example fixture: two supervoxels `1` and `2` whose parents `5·2^32+1` and
`5·2^32+2` are roots in the same chunk `5`. -/
def exT : Table where
  parent := fun x => if x = 1 then some (5 * 2 ^ 32 + 1)
    else if x = 2 then some (5 * 2 ^ 32 + 2) else none
  children := fun n => if n = 5 * 2 ^ 32 + 1 then [1]
    else if n = 5 * 2 ^ 32 + 2 then [2] else []
  newParents := fun _ => none
  formerParents := fun _ => none
  atomicPartners := fun _ => []

/-- Empty table, used only as the default of `Option.getD`. -/
def exDummy : Table where
  parent := fun _ => none
  children := fun _ => []
  newParents := fun _ => none
  formerParents := fun _ => none
  atomicPartners := fun _ => []

/-- Result table of `add_edge` on the example fixture. -/
def exT2 : Table := ((add_edge exT 1 2 [100] 3).getD (exDummy, 0)).1

end Legacy

/-! ## Theorems -/

section IngestProofs

open Ingest

theorem enqueueState_lt (c : Nat) :
    ∀ j, j < c → enqueueState c j =
      ((if j = 0 then none else some ((c : Int) - j)), 0) := by
  intro j
  induction j with
  | zero => intro _; rfl
  | succ j ih =>
      intro hj
      have hjc : j < c := Nat.lt_of_succ_lt hj
      have hstate := ih hjc
      show (let s := enqueueState c j
            let r := _enqueue_parent s.1 c s.2
            (r.1, r.2.1)) = _
      rw [hstate]
      by_cases h0 : j = 0
      · subst h0
        simp only [if_pos rfl]
        have hc2 : 2 ≤ c := hj
        have : ((c : Int) - 1) ≠ 0 := by
          have : (2 : Int) ≤ (c : Int) := by exact_mod_cast hc2
          omega
        simp [_enqueue_parent, this]
      · simp only [if_neg h0]
        have hne : ((c : Int) - j - 1) ≠ 0 := by
          have h1 : (j : Int) + 1 < (c : Int) := by exact_mod_cast hj
          omega
        simp only [_enqueue_parent]
        rw [if_neg hne]
        simp only [if_neg (Nat.succ_ne_zero j)]
        have : (c : Int) - j - 1 = (c : Int) - (j + 1 : Nat) := by push_cast; ring
        rw [this]

/-- Claim C7: during ingest a parent chunk task is enqueued exactly on the
completion call that decrements its remaining-children counter (initialised to
the number of its child chunk coordinates) to zero: `_enqueue_parent` returns
`True` on the `c`-th of `c` completion calls and `False` on every earlier one,
and the parent task is on the queue (exactly once) only from that call on. -/
theorem C7_enqueue_parent_exactly_once (c k : Nat) (hc : 1 ≤ c) (hk1 : 1 ≤ k)
    (hk2 : k ≤ c) :
    (enqueueResult c k = true ↔ k = c) ∧
    (enqueueState c k).2 = (if k = c then 1 else 0) := by
  have hstate := enqueueState_lt c (k - 1) (by omega)
  have hres : enqueueResult c k =
      (_enqueue_parent (enqueueState c (k - 1)).1 c (enqueueState c (k - 1)).2).2.2 := rfl
  have hstep : enqueueState c k =
      (let s := enqueueState c (k - 1)
       let r := _enqueue_parent s.1 c s.2
       (r.1, r.2.1)) := by
    conv_lhs => rw [show k = (k - 1) + 1 by omega]
    rfl
  by_cases h0 : k - 1 = 0
  · have hk : k = 1 := by omega
    subst hk
    rw [hstate] at hres hstep
    simp only [if_pos h0] at hres hstep
    by_cases hc1 : c = 1
    · subst hc1
      constructor
      · rw [hres]; simp [_enqueue_parent]
      · rw [hstep]; simp [_enqueue_parent]
    · have : ((c : Int) - 1) ≠ 0 := by
        have : (1 : Int) ≤ (c : Int) := by exact_mod_cast hc
        have : (c : Int) ≠ 1 := by exact_mod_cast hc1
        omega
      constructor
      · rw [hres]; simp [_enqueue_parent, this, Ne.symm hc1]
      · rw [hstep]; simp [_enqueue_parent, this, Ne.symm hc1]
  · rw [hstate] at hres hstep
    simp only [if_neg h0] at hres hstep
    have harith : (c : Int) - (k - 1 : Nat) - 1 = (c : Int) - (k : Int) := by
      have : ((k - 1 : Nat) : Int) = (k : Int) - 1 := by
        have : 1 ≤ k := hk1
        push_cast [this]
        ring
      rw [this]; ring
    by_cases hkc : k = c
    · subst hkc
      have : (k : Int) - (k - 1 : Nat) - 1 = 0 := by rw [harith]; ring
      constructor
      · rw [hres]; simp [_enqueue_parent, this]
      · rw [hstep]; simp [_enqueue_parent, this]
    · have : (c : Int) - (k - 1 : Nat) - 1 ≠ 0 := by
        rw [harith]
        have : (k : Int) < (c : Int) := by exact_mod_cast Nat.lt_of_le_of_ne hk2 hkc
        omega
      constructor
      · rw [hres]; simp [_enqueue_parent, this, hkc]
      · rw [hstep]; simp [_enqueue_parent, this, hkc]

theorem C7_enqueue_parent_exactly_once_witness :
    ((enqueueResult 2 2 = true ↔ 2 = 2) ∧
      (enqueueState 2 2).2 = (if 2 = 2 then 1 else 0)) ∧
    ((enqueueResult 2 1 = true ↔ 1 = 2) ∧
      (enqueueState 2 1).2 = (if 1 = 2 then 1 else 0)) :=
  ⟨C7_enqueue_parent_exactly_once 2 2 (by decide) (by decide) (by decide),
   C7_enqueue_parent_exactly_once 2 1 (by decide) (by decide) (by decide)⟩

end IngestProofs

section JobsProofs

open Jobs

/-- Claim C8: parent-chunk arithmetic round-trips through the fanout.  Every
in-bounds child coordinate generated by `_get_children_coords` floor-divides
back to its parent's coordinates, the parent chunk derived for a completed
chunk `(l, x, y, z)` in `enqueue_parent_tasks` is `(l+1, x//F, y//F, z//F)`,
and composing the two maps a generated child of layer-`l` parent `(x, y, z)`
to exactly `(l+1, x, y, z)`. -/
theorem C8_children_coords_roundtrip (F : Nat) (hF : 1 ≤ F)
    (bounds par : Nat × Nat × Nat) (l : Nat) :
    (∀ c ∈ _get_children_coords F bounds par, divCoords F c = par) ∧
    (∀ x y z : Nat, parentOfCompleted F (l, (x, y, z)) =
      (l + 1, (x / F, y / F, z / F))) ∧
    (∀ c ∈ _get_children_coords F bounds par,
      parentOfCompleted F (l, c) = (l + 1, par)) := by
  have hdiv : ∀ c ∈ _get_children_coords F bounds par, divCoords F c = par := by
    intro c hc
    simp only [_get_children_coords, List.mem_filter, List.mem_flatMap,
      List.mem_map, List.mem_range] at hc
    obtain ⟨⟨dx, hdx, dy, hdy, dz, hdz, hc⟩, -⟩ := hc
    subst hc
    have h : ∀ a d : Nat, d < F → (a * F + d) / F = a := by
      intro a d hd
      rw [Nat.mul_comm, Nat.mul_add_div (by omega), Nat.div_eq_of_lt hd]
      omega
    simp only [divCoords]
    rw [h _ _ hdx, h _ _ hdy, h _ _ hdz]
  refine ⟨hdiv, fun x y z => rfl, fun c hc => ?_⟩
  show (l + 1, divCoords F c) = (l + 1, par)
  rw [hdiv c hc]

theorem C8_children_coords_roundtrip_witness :
    (∀ c ∈ _get_children_coords 2 (4, 4, 4) (1, 1, 1), divCoords 2 c = (1, 1, 1)) ∧
    (∀ x y z : Nat, parentOfCompleted 2 (3, (x, y, z)) =
      (3 + 1, (x / 2, y / 2, z / 2))) ∧
    (∀ c ∈ _get_children_coords 2 (4, 4, 4) (1, 1, 1),
      parentOfCompleted 2 (3, c) = (3 + 1, (1, 1, 1))) :=
  C8_children_coords_roundtrip 2 (by decide) (4, 4, 4) (1, 1, 1) 3

end JobsProofs

section CgProofs

open Cg

/-- Claim C10: a node id with no stored children column yields the empty
array from `get_children` rather than an error, the multi-id variant maps
every such id to the empty array, and the flattened form is the empty array
when no input has children. -/
theorem C10_get_children_empty (store : Nat → Option (List Nat)) (n : Nat)
    (h : store n = none) :
    get_children store n = [] ∧
    (∀ ids : List Nat, n ∈ ids → (n, ([] : List Nat)) ∈ _get_children_multiple store ids) ∧
    (∀ ids : List Nat, (∀ x ∈ ids, store x = none) →
      get_children_flat store ids = []) := by
  refine ⟨by simp [get_children, h], ?_, ?_⟩
  · intro ids hn
    simp only [_get_children_multiple, List.mem_map]
    exact ⟨n, hn, by simp [get_children, h]⟩
  · intro ids hall
    simp only [get_children_flat, _get_children_multiple, List.map_map]
    rw [List.flatten_eq_nil_iff]
    intro l hl
    simp only [List.mem_map, Function.comp] at hl
    obtain ⟨x, hx, hxl⟩ := hl
    rw [← hxl]
    simp [get_children, hall x hx]

theorem C10_get_children_empty_witness :
    get_children (fun _ => none) 4 = [] ∧
    (∀ ids : List Nat, 4 ∈ ids →
      (4, ([] : List Nat)) ∈ _get_children_multiple (fun _ => none) ids) ∧
    (∀ ids : List Nat, (∀ x ∈ ids, (fun _ => (none : Option (List Nat))) x = none) →
      get_children_flat (fun _ => none) ids = []) :=
  C10_get_children_empty (fun _ => none) 4 rfl

theorem lookup_map_self (l : List Nat) (f : Nat → List Nat) (x : Nat) (hx : x ∈ l) :
    (l.map fun i => (i, f i)).lookup x = some (f x) := by
  induction l with
  | nil => cases hx
  | cons a l ih =>
      by_cases hxa : x = a
      · subst hxa; simp [List.lookup]
      · have hba : (x == a) = false := by simpa using hxa
        simp only [List.map_cons, List.lookup, hba]
        exact ih ((List.mem_cons.mp hx).resolve_left hxa)

theorem mapM_eq_map_of_some {α β : Type} (l : List α) (f : α → Option β) (g : α → β)
    (h : ∀ x ∈ l, f x = some (g x)) : l.mapM f = some (l.map g) := by
  induction l with
  | nil => rfl
  | cons a l ih =>
      rw [List.mapM_cons, h a (by simp), ih (fun x hx => h x (by simp [hx]))]
      rfl

/-- Claim C9: with the edit cache disabled and `current=True`, whenever the
storage read returns at least one parent cell for every queried id of a
non-empty input, `get_parents` returns one entry per input, the `i`-th being
the newest parent of the `i`-th id; the `parent_rows[id_]` lookup is then
always defined, and a read that returns no rows at all yields the empty
list. -/
theorem C9_get_parents_spec (store : Nat → List Nat) (ids : List Nat)
    (hne : ids ≠ []) (hall : ∀ i ∈ ids, store i ≠ []) :
    (get_parents store ids = some (ids.map fun i => (store i).headI) ∧
      (ids.map fun i => (store i).headI).length = ids.length) ∧
    (∀ (store2 : Nat → List Nat) (ids2 : List Nat),
      (∀ i ∈ ids2, store2 i = []) → get_parents store2 ids2 = some []) := by
  constructor
  · have hfilter : ids.filter (fun i => !(store i).isEmpty) = ids := by
      rw [List.filter_eq_self]
      intro i hi
      simp [List.isEmpty_iff, hall i hi]
    have hrows : read_nodes store ids = ids.map fun i => (i, store i) := by
      rw [read_nodes, hfilter]
    have hrows_ne : (read_nodes store ids).isEmpty = false := by
      rw [hrows]
      cases ids with
      | nil => exact absurd rfl hne
      | cons a t => rfl
    constructor
    · rw [get_parents, hrows_ne]
      simp only [Bool.false_eq_true, if_false]
      apply mapM_eq_map_of_some
      intro i hi
      rw [hrows, lookup_map_self ids store i hi]
      obtain ⟨a, l, hstore⟩ : ∃ a l, store i = a :: l := by
        cases hsi : store i with
        | nil => exact absurd hsi (hall i hi)
        | cons a l => exact ⟨a, l, rfl⟩
      simp [hstore]
    · simp
  · intro store2 ids2 hall2
    have : read_nodes store2 ids2 = [] := by
      rw [read_nodes]
      have : ids2.filter (fun i => !(store2 i).isEmpty) = [] := by
        rw [List.filter_eq_nil_iff]
        intro i hi
        simp [hall2 i hi]
      rw [this, List.map_nil]
    rw [get_parents, this]
    rfl

theorem C9_get_parents_spec_witness :
    ((get_parents (fun i => if i = 5 then [9, 7] else []) [5] =
        some ([5].map fun i => ((fun i => if i = 5 then [9, 7] else []) i).headI) ∧
      ([5].map fun i => ((fun i => if i = 5 then [9, 7] else []) i).headI).length =
        [5].length) ∧
    (∀ (store2 : Nat → List Nat) (ids2 : List Nat),
      (∀ i ∈ ids2, store2 i = []) → get_parents store2 ids2 = some [])) :=
  C9_get_parents_spec (fun i => if i = 5 then [9, 7] else []) [5] (by decide)
    (by decide)

end CgProofs

section UtilsProofs

open Utils

theorem edgeLayerAux_self (F : Nat) : ∀ (it : Nat) (c : Nat × Nat × Nat) (acc : Nat),
    edgeLayerAux F it c c acc = acc := by
  intro it
  induction it with
  | zero => intro c acc; rfl
  | succ it ih =>
      intro c acc
      simp only [edgeLayerAux, ne_eq, not_true_eq_false, if_false]
      exact ih (divCoords F c) acc

theorem edgeLayerAux_eq_min (F : Nat) :
    ∀ (it : Nat) (c0 c1 : Nat × Nat × Nat) (acc : Nat)
      (hex : ∃ m, divIter F m c0 = divIter F m c1),
      edgeLayerAux F it c0 c1 acc = acc + min (Nat.find hex) it := by
  intro it
  induction it with
  | zero => intro c0 c1 acc hex; simp [edgeLayerAux]
  | succ it ih =>
      intro c0 c1 acc hex
      by_cases hc : c0 = c1
      · subst hc
        have h0 : Nat.find hex = 0 := by
          rw [Nat.find_eq_zero]
        rw [edgeLayerAux_self, h0]
        simp
      · have hex2 : ∃ m, divIter F m (divCoords F c0) = divIter F m (divCoords F c1) := by
          obtain ⟨m, hm⟩ := hex
          cases m with
          | zero => exact absurd hm hc
          | succ m => exact ⟨m, hm⟩
        have hfind : Nat.find hex = Nat.find hex2 + 1 := by
          rw [Nat.find_eq_iff]
          refine ⟨Nat.find_spec hex2, ?_⟩
          intro j hj
          cases j with
          | zero => exact hc
          | succ j => exact Nat.find_min hex2 (by omega)
        simp only [edgeLayerAux, ne_eq, hc, not_false_eq_true, if_true]
        rw [ih (divCoords F c0) (divCoords F c1) (acc + 1) hex2, hfind,
          Nat.succ_min_succ]
        omega

/-- Claim C2 (amended): `get_cross_chunk_edges_layer` maps each edge to its
crossing layer, which equals one plus the number of rounds of floor division
by the fanout needed to make the endpoints' chunk coordinates coincide —
provided the coordinates coincide within the `layer_count - 2` loop rounds.
With fanout 2, endpoints in chunks `(1,0,0,0)` and `(1,0,0,1)` get crossing
layer 2, and endpoints in chunks `(1,0,0,0)` and `(1,0,1,1)` also get crossing
layer 2 (not 3 as the claim states: one division already equalises the
coordinates `(0,0,0)` and `(0,1,1)`). -/
theorem C2_cross_layer_amended (meta : GraphMeta) (edges : List (Nat × Nat))
    (hbound : ∀ e ∈ edges,
      divIter meta.fanout (meta.layer_count - 2) (nodeCoords e.1) =
        divIter meta.fanout (meta.layer_count - 2) (nodeCoords e.2)) :
    (get_cross_chunk_edges_layer meta edges = edges.map fun e => edgeLayer meta e) ∧
    (∀ e ∈ edges,
      ∀ hex : ∃ m, divIter meta.fanout m (nodeCoords e.1) =
          divIter meta.fanout m (nodeCoords e.2),
        edgeLayer meta e = 1 + Nat.find hex) ∧
    get_cross_chunk_edges_layer ⟨5, 2⟩
      [(encodeId 1 0 0 0 1, encodeId 1 0 0 1 2)] = [2] ∧
    get_cross_chunk_edges_layer ⟨5, 2⟩
      [(encodeId 1 0 0 0 1, encodeId 1 0 1 1 2)] = [2] := by
  refine ⟨rfl, ?_, by decide, by decide⟩
  intro e he hex
  have hle : Nat.find hex ≤ meta.layer_count - 2 := Nat.find_le (hbound e he)
  rw [edgeLayer, edgeLayerAux_eq_min meta.fanout (meta.layer_count - 2) _ _ 1 hex,
    Nat.min_eq_left hle, Nat.add_comm]

theorem C2_cross_layer_amended_witness :
    ((get_cross_chunk_edges_layer ⟨5, 2⟩
        [(encodeId 1 0 0 0 1, encodeId 1 0 0 1 2)] =
      [(encodeId 1 0 0 0 1, encodeId 1 0 0 1 2)].map fun e => edgeLayer ⟨5, 2⟩ e) ∧
    (∀ e ∈ [(encodeId 1 0 0 0 1, encodeId 1 0 0 1 2)],
      ∀ hex : ∃ m, divIter (5, 2).2 m (nodeCoords e.1) =
          divIter (5, 2).2 m (nodeCoords e.2),
        edgeLayer ⟨5, 2⟩ e = 1 + Nat.find hex) ∧
    get_cross_chunk_edges_layer ⟨5, 2⟩
      [(encodeId 1 0 0 0 1, encodeId 1 0 0 1 2)] = [2] ∧
    get_cross_chunk_edges_layer ⟨5, 2⟩
      [(encodeId 1 0 0 0 1, encodeId 1 0 1 1 2)] = [2]) :=
  C2_cross_layer_amended ⟨5, 2⟩ [(encodeId 1 0 0 0 1, encodeId 1 0 0 1 2)]
    (by decide)

/-- Claim C2 counterexample: endpoints in chunks `(1,0,0,0)` and `(1,0,1,1)`
with fanout 2 get crossing layer 2, not 3 as the claim asserts. -/
theorem C2_cross_layer_counterexample :
    get_cross_chunk_edges_layer ⟨5, 2⟩
      [(encodeId 1 0 0 0 1, encodeId 1 0 1 1 2)] ≠ [3] ∧
    get_cross_chunk_edges_layer ⟨5, 2⟩
      [(encodeId 1 0 0 0 1, encodeId 1 0 1 1 2)] = [2] := by
  exact ⟨by decide, by decide⟩

theorem edgeLayerAux_ge_acc (F : Nat) :
    ∀ (it : Nat) (c0 c1 : Nat × Nat × Nat) (acc : Nat),
      acc ≤ edgeLayerAux F it c0 c1 acc := by
  intro it
  induction it with
  | zero => intro c0 c1 acc; exact Nat.le_refl acc
  | succ it ih =>
      intro c0 c1 acc
      simp only [edgeLayerAux]
      refine Nat.le_trans ?_ (ih (divCoords F c0) (divCoords F c1) _)
      split <;> omega

theorem edgeLayer_eq_one_iff (meta : GraphMeta) (hlc : 3 ≤ meta.layer_count)
    (e : Nat × Nat) :
    (edgeLayer meta e = 1 ↔ nodeCoords e.1 = nodeCoords e.2) ∧
    1 ≤ edgeLayer meta e := by
  constructor
  · constructor
    · intro h1
      by_contra hne
      obtain ⟨k, hk⟩ : ∃ k, meta.layer_count - 2 = k + 1 :=
        ⟨meta.layer_count - 3, by omega⟩
      rw [edgeLayer, hk] at h1
      rw [show edgeLayerAux meta.fanout (k + 1) (nodeCoords e.1) (nodeCoords e.2) 1 =
          edgeLayerAux meta.fanout k (divCoords meta.fanout (nodeCoords e.1))
            (divCoords meta.fanout (nodeCoords e.2)) 2 by
        simp only [edgeLayerAux, if_pos hne]] at h1
      have := edgeLayerAux_ge_acc meta.fanout k
        (divCoords meta.fanout (nodeCoords e.1)) (divCoords meta.fanout (nodeCoords e.2)) 2
      omega
    · intro heq
      rw [edgeLayer, heq, edgeLayerAux_self]
  · rw [edgeLayer]
    exact edgeLayerAux_ge_acc meta.fanout _ _ _ 1

/-- Claim C4 (amended): `categorize_edges` partitions the edges whose first
endpoint lies in the supervoxel set (edges where only the second endpoint is
in the set are dropped): both endpoints in the set go to `in_edges`; first
endpoint in, second out goes to `out_edges` when both endpoints lie in the
same atomic chunk (crossing layer 1) and to `cross_edges` otherwise, and such
an edge lands in exactly one of the three outputs. -/
theorem C4_categorize_partition_amended (meta : GraphMeta)
    (hlc : 3 ≤ meta.layer_count) (sv : List Nat) (edges : List (Nat × Nat))
    (e : Nat × Nat) (he : e ∈ edges) (h1 : e.1 ∈ sv) :
    (e ∈ (categorize_edges meta sv edges).1 ∨
      e ∈ (categorize_edges meta sv edges).2.1 ∨
      e ∈ (categorize_edges meta sv edges).2.2) ∧
    (e ∈ (categorize_edges meta sv edges).1 ↔ e.2 ∈ sv) ∧
    (e ∈ (categorize_edges meta sv edges).2.1 ↔
      e.2 ∉ sv ∧ nodeCoords e.1 = nodeCoords e.2) ∧
    (e ∈ (categorize_edges meta sv edges).2.2 ↔
      e.2 ∉ sv ∧ nodeCoords e.1 ≠ nodeCoords e.2) := by
  obtain ⟨hiff, hpos⟩ := edgeLayer_eq_one_iff meta hlc e
  have hnot : (¬ 1 < edgeLayer meta e) ↔ nodeCoords e.1 = nodeCoords e.2 := by
    rw [← hiff]; omega
  have hin : e ∈ (categorize_edges meta sv edges).1 ↔ e.2 ∈ sv := by
    simp [categorize_edges, List.mem_filter, he, h1]
  have hout : e ∈ (categorize_edges meta sv edges).2.1 ↔
      e.2 ∉ sv ∧ nodeCoords e.1 = nodeCoords e.2 := by
    simp only [categorize_edges, List.mem_filter, Bool.and_eq_true,
      Bool.not_eq_true', decide_eq_true_eq, decide_eq_false_iff_not]
    constructor
    · rintro ⟨⟨-, -, hsv2⟩, hlt⟩
      exact ⟨hsv2, hnot.mp (by simp [hlt])⟩
    · rintro ⟨hsv2, hcoords⟩
      exact ⟨⟨he, h1, hsv2⟩, by simp [hnot.mpr hcoords]⟩
  have hcross : e ∈ (categorize_edges meta sv edges).2.2 ↔
      e.2 ∉ sv ∧ nodeCoords e.1 ≠ nodeCoords e.2 := by
    simp only [categorize_edges, List.mem_filter, Bool.and_eq_true,
      Bool.not_eq_true', decide_eq_true_eq, decide_eq_false_iff_not]
    constructor
    · rintro ⟨⟨-, -, hsv2⟩, hlt⟩
      refine ⟨hsv2, fun hcoords => ?_⟩
      have := hnot.mpr hcoords
      omega
    · rintro ⟨hsv2, hcoords⟩
      have hlt : 1 < edgeLayer meta e := by
        by_contra hh
        exact hcoords (hnot.mp hh)
      exact ⟨⟨he, h1, hsv2⟩, hlt⟩
  refine ⟨?_, hin, hout, hcross⟩
  by_cases h2 : e.2 ∈ sv
  · exact Or.inl (hin.mpr h2)
  · by_cases hco : nodeCoords e.1 = nodeCoords e.2
    · exact Or.inr (Or.inl (hout.mpr ⟨h2, hco⟩))
    · exact Or.inr (Or.inr (hcross.mpr ⟨h2, hco⟩))

theorem C4_categorize_partition_amended_witness :
    ((encodeId 1 0 0 0 1, encodeId 1 0 0 0 2) ∈
        (categorize_edges ⟨5, 2⟩ [encodeId 1 0 0 0 1]
          [(encodeId 1 0 0 0 1, encodeId 1 0 0 0 2)]).1 ∨
      (encodeId 1 0 0 0 1, encodeId 1 0 0 0 2) ∈
        (categorize_edges ⟨5, 2⟩ [encodeId 1 0 0 0 1]
          [(encodeId 1 0 0 0 1, encodeId 1 0 0 0 2)]).2.1 ∨
      (encodeId 1 0 0 0 1, encodeId 1 0 0 0 2) ∈
        (categorize_edges ⟨5, 2⟩ [encodeId 1 0 0 0 1]
          [(encodeId 1 0 0 0 1, encodeId 1 0 0 0 2)]).2.2) ∧
    ((encodeId 1 0 0 0 1, encodeId 1 0 0 0 2) ∈
        (categorize_edges ⟨5, 2⟩ [encodeId 1 0 0 0 1]
          [(encodeId 1 0 0 0 1, encodeId 1 0 0 0 2)]).1 ↔
      (encodeId 1 0 0 0 1, encodeId 1 0 0 0 2).2 ∈ [encodeId 1 0 0 0 1]) ∧
    ((encodeId 1 0 0 0 1, encodeId 1 0 0 0 2) ∈
        (categorize_edges ⟨5, 2⟩ [encodeId 1 0 0 0 1]
          [(encodeId 1 0 0 0 1, encodeId 1 0 0 0 2)]).2.1 ↔
      (encodeId 1 0 0 0 1, encodeId 1 0 0 0 2).2 ∉ [encodeId 1 0 0 0 1] ∧
        nodeCoords (encodeId 1 0 0 0 1, encodeId 1 0 0 0 2).1 =
          nodeCoords (encodeId 1 0 0 0 1, encodeId 1 0 0 0 2).2) ∧
    ((encodeId 1 0 0 0 1, encodeId 1 0 0 0 2) ∈
        (categorize_edges ⟨5, 2⟩ [encodeId 1 0 0 0 1]
          [(encodeId 1 0 0 0 1, encodeId 1 0 0 0 2)]).2.2 ↔
      (encodeId 1 0 0 0 1, encodeId 1 0 0 0 2).2 ∉ [encodeId 1 0 0 0 1] ∧
        nodeCoords (encodeId 1 0 0 0 1, encodeId 1 0 0 0 2).1 ≠
          nodeCoords (encodeId 1 0 0 0 1, encodeId 1 0 0 0 2).2) :=
  C4_categorize_partition_amended ⟨5, 2⟩ (by decide) [encodeId 1 0 0 0 1]
    [(encodeId 1 0 0 0 1, encodeId 1 0 0 0 2)]
    (encodeId 1 0 0 0 1, encodeId 1 0 0 0 2) (by decide) (by decide)

/-- Claim C4 counterexample: an edge whose second endpoint is in the
supervoxel set but whose first endpoint is not has at least one endpoint in
the set, yet `categorize_edges` places it in none of the three outputs (all
three are empty here), so the claimed partition of edges with at least one
endpoint in the set fails. -/
theorem C4_categorize_counterexample :
    (encodeId 1 0 0 0 2, encodeId 1 0 0 0 1).2 ∈ [encodeId 1 0 0 0 1] ∧
    categorize_edges ⟨5, 2⟩ [encodeId 1 0 0 0 1]
      [(encodeId 1 0 0 0 2, encodeId 1 0 0 0 1)] = ([], [], []) := by
  exact ⟨by decide, by decide⟩

end UtilsProofs

section CgRootProofs

open Cg

theorem parIter_layer_le (p : Nat → Option Nat)
    (hmono : ∀ n q, p n = some q → nodeLayer n < nodeLayer q) :
    ∀ (k : Nat) (x y : Nat), parIter p k x = some y → nodeLayer x ≤ nodeLayer y := by
  intro k
  induction k with
  | zero => intro x y h; cases h; exact Nat.le_refl _
  | succ k ih =>
      intro x y h
      rw [parIter] at h
      cases hp : p x with
      | none => rw [hp] at h; cases h
      | some z =>
          rw [hp] at h
          exact Nat.le_trans (Nat.le_of_lt (hmono x z hp)) (ih z y h)

theorem chaseUp_reaches (p : Nat → Option Nat) (stop : Nat) :
    ∀ (fuel cur : Nat), ∃ k, parIter p k cur = some (chaseUp p stop fuel cur) := by
  intro fuel
  induction fuel with
  | zero => intro cur; exact ⟨0, rfl⟩
  | succ fuel ih =>
      intro cur
      cases hp : p cur with
      | none => exact ⟨0, by simp [chaseUp, parIter, hp]⟩
      | some q =>
          by_cases hq : stop ≤ nodeLayer q
          · exact ⟨1, by simp [chaseUp, parIter, hp, hq]⟩
          · obtain ⟨k, hk⟩ := ih q
            refine ⟨k + 1, ?_⟩
            simp only [parIter, chaseUp, hp]
            rw [if_neg hq]
            exact hk

theorem tryChase_reaches (p : Nat → Option Nat) (stop node : Nat) :
    ∀ tries : Nat, ∃ k, parIter p k node = some (tryChase p stop node tries) := by
  intro tries
  induction tries with
  | zero => exact ⟨0, rfl⟩
  | succ t ih =>
      cases t with
      | zero => exact chaseUp_reaches p stop _ node
      | succ u =>
          have heq : tryChase p stop node (u + 1 + 1) =
              if stop ≤ nodeLayer (chaseUp p stop (stop + 1 - nodeLayer node) node)
              then chaseUp p stop (stop + 1 - nodeLayer node) node
              else tryChase p stop node (u + 1) := rfl
          rw [heq]
          by_cases hr : stop ≤ nodeLayer (chaseUp p stop (stop + 1 - nodeLayer node) node)
          · rw [if_pos hr]
            exact chaseUp_reaches p stop _ node
          · rw [if_neg hr]
            exact ih

/-- Claim C6: `get_root(node_id, stop_layer, n_tries)` raises `RootNotFound`
if and only if, after its retries, the parent-chain walk ends at a node whose
layer is still below `stop_layer`, and whenever it returns normally the result
is an ancestor of `node_id` (or `node_id` itself) at layer at least
`stop_layer`.  (`tryChase` is exactly the walk-with-retries of the source;
layers increase along parents.) -/
theorem C6_get_root_error_iff (p : Nat → Option Nat) (node stop tries : Nat)
    (hmono : ∀ n q, p n = some q → nodeLayer n < nodeLayer q) :
    (get_root p node stop tries = .error () ↔
      nodeLayer (tryChase p stop node tries) < stop) ∧
    (∀ r, get_root p node stop tries = .ok r →
      (∃ k, parIter p k node = some r) ∧ stop ≤ nodeLayer r) := by
  have hunfold : get_root p node stop tries =
      if nodeLayer node = stop then .ok node
      else if nodeLayer (tryChase p stop node tries) < stop then .error ()
      else .ok (tryChase p stop node tries) := rfl
  constructor
  · rw [hunfold]
    by_cases h0 : nodeLayer node = stop
    · rw [if_pos h0]
      constructor
      · intro h; cases h
      · intro hlt
        exfalso
        obtain ⟨k, hk⟩ := tryChase_reaches p stop node tries
        have := parIter_layer_le p hmono k node _ hk
        omega
    · rw [if_neg h0]
      by_cases hf : nodeLayer (tryChase p stop node tries) < stop
      · rw [if_pos hf]
        exact iff_of_true rfl hf
      · rw [if_neg hf]
        exact iff_of_false (by simp) hf
  · intro r hr
    rw [hunfold] at hr
    by_cases h0 : nodeLayer node = stop
    · rw [if_pos h0] at hr
      cases hr
      exact ⟨⟨0, rfl⟩, Nat.le_of_eq h0.symm⟩
    · rw [if_neg h0] at hr
      by_cases hf : nodeLayer (tryChase p stop node tries) < stop
      · rw [if_pos hf] at hr
        cases hr
      · rw [if_neg hf] at hr
        cases hr
        exact ⟨tryChase_reaches p stop node tries, Nat.le_of_not_lt hf⟩

theorem C6_get_root_error_iff_witness :
    ((get_root (fun n => if n = encodeId 1 0 0 0 1
          then some (encodeId 2 0 0 0 1) else none)
        (encodeId 1 0 0 0 1) 2 1 = .error () ↔
      nodeLayer (tryChase (fun n => if n = encodeId 1 0 0 0 1
          then some (encodeId 2 0 0 0 1) else none)
        2 (encodeId 1 0 0 0 1) 1) < 2) ∧
    (∀ r, get_root (fun n => if n = encodeId 1 0 0 0 1
          then some (encodeId 2 0 0 0 1) else none)
        (encodeId 1 0 0 0 1) 2 1 = .ok r →
      (∃ k, parIter (fun n => if n = encodeId 1 0 0 0 1
          then some (encodeId 2 0 0 0 1) else none) k (encodeId 1 0 0 0 1) =
          some r) ∧ 2 ≤ nodeLayer r)) :=
  C6_get_root_error_iff
    (fun n => if n = encodeId 1 0 0 0 1 then some (encodeId 2 0 0 0 1) else none)
    (encodeId 1 0 0 0 1) 2 1
    (by
      intro n q h
      have h2 : (if n = encodeId 1 0 0 0 1 then some (encodeId 2 0 0 0 1)
          else none) = some q := h
      by_cases hn : n = encodeId 1 0 0 0 1
      · rw [if_pos hn] at h2
        cases h2
        rw [hn]
        decide
      · rw [if_neg hn] at h2
        cases h2)

theorem HitsAtK_shift (p : Nat → Option Nat) (stop x y r k : Nat)
    (hp : p x = some y) (hk : HitsAtK p stop x r (k + 1)) :
    HitsAtK p stop y r k := by
  obtain ⟨hpar, hlay, hmid⟩ := hk
  refine ⟨?_, hlay, ?_⟩
  · rw [parIter, hp] at hpar
    exact hpar
  · intro j hj
    obtain ⟨z, hz1, hz2⟩ := hmid (j + 1) (by omega)
    rw [parIter, hp] at hz1
    exact ⟨z, hz1, hz2⟩

theorem HitsAtK_unshift (p : Nat → Option Nat) (stop x y r k : Nat)
    (hx : nodeLayer x < stop) (hp : p x = some y) (hk : HitsAtK p stop y r k) :
    HitsAtK p stop x r (k + 1) := by
  obtain ⟨hpar, hlay, hmid⟩ := hk
  refine ⟨?_, hlay, ?_⟩
  · rw [parIter, hp]
    exact hpar
  · intro j hj
    cases j with
    | zero => exact ⟨x, rfl, hx⟩
    | succ j =>
        obtain ⟨z, hz1, hz2⟩ := hmid j (by omega)
        refine ⟨z, ?_, hz2⟩
        rw [parIter, hp]
        exact hz1

theorem HitsAtK_stop (p : Nat → Option Nat) (stop x r k : Nat)
    (hx : ¬ nodeLayer x < stop) (hk : HitsAtK p stop x r k) :
    k = 0 ∧ r = x ∧ nodeLayer x = stop := by
  obtain ⟨hpar, hlay, hmid⟩ := hk
  cases k with
  | zero =>
      cases hpar
      exact ⟨rfl, rfl, hlay⟩
  | succ k =>
      obtain ⟨y, hy1, hy2⟩ := hmid 0 (by omega)
      cases hy1
      exact absurd hy2 hx

theorem HitsAtK_pos (p : Nat → Option Nat) (stop x r k : Nat)
    (hx : nodeLayer x < stop) (hk : HitsAtK p stop x r k) :
    1 ≤ k ∧ ∃ y, p x = some y := by
  have hk1 : 1 ≤ k := by
    by_contra h
    have hk0 : k = 0 := by omega
    subst hk0
    obtain ⟨hpar, hlay, -⟩ := hk
    cases hpar
    omega
  obtain ⟨k2, hk2⟩ : ∃ k2, k = k2 + 1 := ⟨k - 1, by omega⟩
  subst hk2
  obtain ⟨hpar, -, -⟩ := hk
  rw [parIter] at hpar
  cases hp : p x with
  | none => rw [hp] at hpar; cases hpar
  | some y => exact ⟨hk1, y, rfl⟩

theorem forall₂_mem_imp {α β : Type} {S R : α → β → Prop} :
    ∀ {l : List α} {res : List β}, List.Forall₂ S l res →
      (∀ x ∈ l, ∀ r, S x r → R x r) → List.Forall₂ R l res := by
  intro l res h
  induction h with
  | nil => intro _; exact List.Forall₂.nil
  | cons hxr hrest ih =>
      intro himp
      exact List.Forall₂.cons (himp _ (by simp) _ hxr)
        (ih fun x hx r hs => himp x (by simp [hx]) r hs)

theorem zipWith_map_map {α β γ δ : Type} (f : β → γ → δ) (g : α → β) (h : α → γ) :
    ∀ l : List α, List.zipWith f (l.map g) (l.map h) = l.map fun x => f (g x) (h x) := by
  intro l
  induction l with
  | nil => rfl
  | cons a l ih => simp [ih]

theorem zip_mapM_parents (p : Nat → Option Nat) (stop : Nat) :
    ∀ ids : List Nat, (∀ x ∈ ids, nodeLayer x < stop → (p x).isSome) →
      ((ids.zip (ids.map fun x => decide (nodeLayer x < stop))).mapM
          fun xm => if xm.2 = true then p xm.1 else some xm.1) =
        some (ids.map (Cg.stepRoots p stop)) := by
  intro ids
  induction ids with
  | nil => intro _; rfl
  | cons a ids ih =>
      intro h
      simp only [List.map_cons, List.zip_cons_cons, List.mapM_cons]
      have hrest := ih fun x hx => h x (by simp [hx])
      rw [show (ids.zip (ids.map fun x => decide (nodeLayer x < stop))).mapM
          (fun xm => if xm.2 = true then p xm.1 else some xm.1) =
          some (ids.map (Cg.stepRoots p stop)) from hrest]
      by_cases ha : nodeLayer a < stop
      · have hsome := h a (by simp) ha
        cases hp : p a with
        | none => rw [hp] at hsome; cases hsome
        | some y => simp [Cg.stepRoots, ha, hp]
      · simp [Cg.stepRoots, ha]

theorem stepIds_map_mask (p : Nat → Option Nat) (stop : Nat) :
    ∀ ids : List Nat, (∃ x ∈ ids, nodeLayer x < stop) →
      (∀ x ∈ ids, nodeLayer x < stop → (p x).isSome) →
      Cg.stepIds p ids (ids.map fun x => decide (nodeLayer x < stop)) =
        some (ids.map (Cg.stepRoots p stop)) := by
  intro ids hsome h
  have hany : ((ids.map fun x => decide (nodeLayer x < stop)).any fun b => b) =
      true := by
    obtain ⟨x, hx, hlt⟩ := hsome
    exact List.any_eq_true.mpr
      ⟨decide (nodeLayer x < stop), List.mem_map_of_mem _ hx, by simpa using hlt⟩
  rw [Cg.stepIds, if_pos hany]
  exact zip_mapM_parents p stop ids h

theorem decide_lt_eq_not_le (a b : Nat) : decide (a < b) = !decide (b ≤ a) := by
  by_cases h : b ≤ a
  · rw [decide_eq_false (by omega), decide_eq_true h]
    rfl
  · rw [decide_eq_true (by omega), decide_eq_false h]
    rfl

theorem getRootsInner_ret (p : Nat → Option Nat) (stop : Nat) :
    ∀ (fuel : Nat) (ids : List Nat),
      1 ≤ fuel →
      (∃ x ∈ ids, nodeLayer x < stop) →
      (∀ x ∈ ids, ∃ r k, HitsAtK p stop x r k ∧ k + 1 ≤ fuel) →
      ∃ res, Cg.getRootsInner p stop false fuel ids
          (ids.map fun x => decide (nodeLayer x < stop)) =
            some (Cg.InnerRes.ret res) ∧
        List.Forall₂ (HitsAt p stop) ids res := by
  intro fuel
  induction fuel with
  | zero => intro ids h0 _ _; omega
  | succ f ih =>
      intro ids _ hsome hhit
      have hpar : ∀ x ∈ ids, nodeLayer x < stop → (p x).isSome := by
        intro x hx hlt
        obtain ⟨r, k, hk, -⟩ := hhit x hx
        obtain ⟨-, y, hy⟩ := HitsAtK_pos p stop x r k hlt hk
        rw [hy]
        rfl
      have hstep := stepIds_map_mask p stop ids hsome hpar
      have hshift : ∀ x ∈ ids, nodeLayer x < stop →
          ∀ r k, HitsAtK p stop x r k → p x = some (Cg.stepRoots p stop x) ∧
            HitsAtK p stop (Cg.stepRoots p stop x) r (k - 1) ∧ 1 ≤ k := by
        intro x hx hlt r k hk
        obtain ⟨hk1, y, hy⟩ := HitsAtK_pos p stop x r k hlt hk
        have hgx : Cg.stepRoots p stop x = y := by
          simp [Cg.stepRoots, hlt, hy]
        rw [hgx]
        refine ⟨hy, ?_, hk1⟩
        have hk2 : k = (k - 1) + 1 := by omega
        rw [hk2] at hk
        exact HitsAtK_shift p stop x y r (k - 1) hy hk
      by_cases hbelow :
          ((ids.map (Cg.stepRoots p stop)).any fun x => decide (nodeLayer x < stop)) = true
      · -- some entry is still below `stop`: the loop recurses
        have hf1 : 2 ≤ f + 1 := by
          obtain ⟨y0, hy0, hy0lt⟩ := List.any_eq_true.mp hbelow
          obtain ⟨x0, hx0, hx0e⟩ := List.mem_map.mp hy0
          have hy0lt : nodeLayer y0 < stop := of_decide_eq_true hy0lt
          have hx0lt : nodeLayer x0 < stop := by
            by_contra hno
            have : Cg.stepRoots p stop x0 = x0 := by simp [Cg.stepRoots, hno]
            rw [this] at hx0e
            rw [← hx0e] at hy0lt
            exact hno hy0lt
          obtain ⟨r0, k0, hk0, hb0⟩ := hhit x0 hx0
          obtain ⟨-, hky0, hk01⟩ := hshift x0 hx0 hx0lt r0 k0 hk0
          rw [hx0e] at hky0
          obtain ⟨hk02, -⟩ := HitsAtK_pos p stop y0 r0 (k0 - 1) hy0lt hky0
          omega
        have hhit2 : ∀ y ∈ ids.map (Cg.stepRoots p stop),
            ∃ r k, HitsAtK p stop y r k ∧ k + 1 ≤ f := by
          intro y hy
          obtain ⟨x, hx, hxe⟩ := List.mem_map.mp hy
          obtain ⟨r, k, hk, hb⟩ := hhit x hx
          by_cases hlt : nodeLayer x < stop
          · obtain ⟨-, hky, hk1⟩ := hshift x hx hlt r k hk
            rw [hxe] at hky
            exact ⟨r, k - 1, hky, by omega⟩
          · obtain ⟨hk0, hrx, -⟩ := HitsAtK_stop p stop x r k hlt hk
            subst hk0
            have hyx : y = x := by
              rw [← hxe]
              simp [Cg.stepRoots, hlt]
            rw [hyx]
            exact ⟨r, 0, hk, by omega⟩
        have hsome2 : ∃ y ∈ ids.map (Cg.stepRoots p stop), nodeLayer y < stop := by
          obtain ⟨y0, hy0, hy0lt⟩ := List.any_eq_true.mp hbelow
          exact ⟨y0, hy0, of_decide_eq_true hy0lt⟩
        obtain ⟨res, hres, hfa⟩ := ih (ids.map (Cg.stepRoots p stop)) (by omega)
          hsome2 hhit2
        have hmask : List.zipWith (fun m x => m && !(decide (stop ≤ nodeLayer x)))
            (ids.map fun x => decide (nodeLayer x < stop))
            (ids.map (Cg.stepRoots p stop)) =
            (ids.map (Cg.stepRoots p stop)).map fun x => decide (nodeLayer x < stop) := by
          rw [zipWith_map_map, List.map_map]
          apply List.map_congr_left
          intro x hx
          by_cases hlt : nodeLayer x < stop
          · simp only [Function.comp, decide_eq_true hlt, Bool.true_and]
            exact (decide_lt_eq_not_le _ _).symm
          · simp only [Function.comp, decide_eq_false hlt, Bool.false_and]
            have hxx : Cg.stepRoots p stop x = x := by simp [Cg.stepRoots, hlt]
            rw [hxx, decide_eq_false hlt]
        refine ⟨res, ?_, ?_⟩
        · show (match Cg.stepIds p ids (ids.map fun x => decide (nodeLayer x < stop)) with
            | none => none
            | some temp =>
              if !(temp.any fun x => decide (nodeLayer x < stop)) then
                if false || !(temp.any fun x => decide (stop < nodeLayer x)) then
                  some (Cg.InnerRes.ret temp)
                else some (Cg.InnerRes.ret ids)
              else Cg.getRootsInner p stop false f temp
                (List.zipWith (fun m x => m && !(decide (stop ≤ nodeLayer x)))
                  (ids.map fun x => decide (nodeLayer x < stop)) temp)) =
            some (Cg.InnerRes.ret res)
          rw [hstep]
          simp only [hbelow, Bool.not_true, Bool.false_eq_true, if_false]
          rw [hmask]
          exact hres
        · have hfa2 : List.Forall₂ (fun x r => HitsAt p stop (Cg.stepRoots p stop x) r)
              ids res := List.forall₂_map_left_iff.mp hfa
          refine forall₂_mem_imp hfa2 ?_
          intro x hx r hsr
          obtain ⟨k2, hk2⟩ := hsr
          by_cases hlt : nodeLayer x < stop
          · have hsome := hpar x hx hlt
            cases hp : p x with
            | none => rw [hp] at hsome; cases hsome
            | some y =>
                have hgx : Cg.stepRoots p stop x = y := by
                  simp [Cg.stepRoots, hlt, hp]
                rw [hgx] at hk2
                exact ⟨k2 + 1, HitsAtK_unshift p stop x y r k2 hlt hp hk2⟩
          · have hgx : Cg.stepRoots p stop x = x := by simp [Cg.stepRoots, hlt]
            rw [hgx] at hk2
            exact ⟨k2, hk2⟩
      · -- every entry has reached `stop` exactly: the loop returns `temp`
        have hbf : ((ids.map (Cg.stepRoots p stop)).any
            fun x => decide (nodeLayer x < stop)) = false :=
          Bool.eq_false_iff.mpr hbelow
        have hstopall : ∀ x ∈ ids, nodeLayer (Cg.stepRoots p stop x) = stop ∧
            HitsAt p stop x (Cg.stepRoots p stop x) := by
          intro x hx
          have hnlt : ¬ nodeLayer (Cg.stepRoots p stop x) < stop := by
            have := List.any_eq_false.mp hbf (Cg.stepRoots p stop x)
              (List.mem_map_of_mem _ hx)
            simpa using this
          obtain ⟨r, k, hk, -⟩ := hhit x hx
          by_cases hlt : nodeLayer x < stop
          · obtain ⟨-, hky, hk1⟩ := hshift x hx hlt r k hk
            obtain ⟨-, hry, hly⟩ := HitsAtK_stop p stop _ r (k - 1) hnlt hky
            exact ⟨hly, ⟨k, hry ▸ hk⟩⟩
          · obtain ⟨hk0, hrx, hlx⟩ := HitsAtK_stop p stop x r k hlt hk
            have hgx : Cg.stepRoots p stop x = x := by simp [Cg.stepRoots, hlt]
            rw [hgx]
            exact ⟨hlx, ⟨k, hrx ▸ hk⟩⟩
        have hexceed : ((ids.map (Cg.stepRoots p stop)).any
            fun x => decide (stop < nodeLayer x)) = false := by
          rw [List.any_eq_false]
          intro y hy
          obtain ⟨x, hx, hxe⟩ := List.mem_map.mp hy
          have hsx := (hstopall x hx).1
          rw [hxe] at hsx
          simp [hsx]
        refine ⟨ids.map (Cg.stepRoots p stop), ?_, ?_⟩
        · show (match Cg.stepIds p ids (ids.map fun x => decide (nodeLayer x < stop)) with
            | none => none
            | some temp =>
              if !(temp.any fun x => decide (nodeLayer x < stop)) then
                if false || !(temp.any fun x => decide (stop < nodeLayer x)) then
                  some (Cg.InnerRes.ret temp)
                else some (Cg.InnerRes.ret ids)
              else Cg.getRootsInner p stop false f temp
                (List.zipWith (fun m x => m && !(decide (stop ≤ nodeLayer x)))
                  (ids.map fun x => decide (nodeLayer x < stop)) temp)) =
            some (Cg.InnerRes.ret (ids.map (Cg.stepRoots p stop)))
          rw [hstep]
          simp only [hbf, hexceed, Bool.not_false, if_true, Bool.false_or]
        · rw [List.forall₂_map_right_iff]
          rw [List.forall₂_same]
          exact fun x hx => (hstopall x hx).2

theorem parIter_layer_add (p : Nat → Option Nat)
    (hmono : ∀ n q, p n = some q → nodeLayer n < nodeLayer q) :
    ∀ (j x y : Nat), parIter p j x = some y → nodeLayer x + j ≤ nodeLayer y := by
  intro j
  induction j with
  | zero => intro x y h; cases h; omega
  | succ j ih =>
      intro x y h
      rw [parIter] at h
      cases hp : p x with
      | none => rw [hp] at h; cases h
      | some z =>
          rw [hp] at h
          have h1 := ih z y h
          have h2 := hmono x z hp
          omega

theorem HitsAtK_le_stop (p : Nat → Option Nat) (stop x r k : Nat)
    (hmono : ∀ n q, p n = some q → nodeLayer n < nodeLayer q)
    (hk : HitsAtK p stop x r k) : k ≤ stop := by
  cases k with
  | zero => omega
  | succ k =>
      obtain ⟨-, -, hmid⟩ := hk
      obtain ⟨y, hy1, hy2⟩ := hmid k (by omega)
      have := parIter_layer_add p hmono k x y hy1
      omega

/-- Claim C5 (amended): with `ceil=False`, when at least one input lies
strictly below `stop_layer` and every input's parent chain contains an
ancestor at layer exactly `stop_layer` (layers strictly increase along
parents), `get_roots` returns one ID per input, the `i`-th being the first
ancestor of the `i`-th input at layer exactly `stop_layer` — at `stop_layer`,
not strictly below it.  (The strictly-below rollback `return parent_ids`
fires only when some entry overshoots `stop_layer`, which cannot happen when
the chains hit `stop_layer` exactly; with no input below `stop_layer` the
first parent-update step raises `TypeError` instead of returning.) -/
theorem C5_get_roots_amended (p : Nat → Option Nat) (stop : Nat)
    (ids : List Nat) (tries : Nat) (htries : 1 ≤ tries)
    (hsome : ∃ x ∈ ids, nodeLayer x < stop)
    (hmono : ∀ n q, p n = some q → nodeLayer n < nodeLayer q)
    (hhit : ∀ x ∈ ids, ∃ r, HitsAt p stop x r) :
    ∃ res, Cg.get_roots p stop false ids tries = some res ∧
      res.length = ids.length ∧ List.Forall₂ (HitsAt p stop) ids res := by
  have hhitk : ∀ x ∈ ids, ∃ r k, HitsAtK p stop x r k ∧ k + 1 ≤ stop + 1 := by
    intro x hx
    obtain ⟨r, k, hk⟩ := hhit x hx
    exact ⟨r, k, hk, by
      have := HitsAtK_le_stop p stop x r k hmono hk
      omega⟩
  obtain ⟨res, hres, hfa⟩ := getRootsInner_ret p stop (stop + 1) ids (by omega)
    hsome hhitk
  refine ⟨res, ?_, (List.Forall₂.length_eq hfa).symm, hfa⟩
  cases tries with
  | zero => omega
  | succ t =>
      cases t with
      | zero =>
          show (match Cg.getRootsInner p stop false (stop + 1) ids
              (ids.map fun x => decide (nodeLayer x < stop)) with
            | none => none
            | some (Cg.InnerRes.ret l) => some l
            | some (Cg.InnerRes.fall l) => some l) = some res
          rw [hres]
      | succ u =>
          show (match Cg.getRootsInner p stop false (stop + 1) ids
              (ids.map fun x => decide (nodeLayer x < stop)) with
            | none => none
            | some (Cg.InnerRes.ret l) => some l
            | some (Cg.InnerRes.fall l) =>
                if !(l.any fun x => decide (nodeLayer x < stop)) then some l
                else Cg.get_roots p stop false ids (u + 1)) = some res
          rw [hres]

theorem C5_get_roots_amended_witness :
    ∃ res, Cg.get_roots
        (fun n => if n = encodeId 1 0 0 0 1 then some (encodeId 2 0 0 0 1) else none)
        2 false [encodeId 1 0 0 0 1] 1 = some res ∧
      res.length = [encodeId 1 0 0 0 1].length ∧
      List.Forall₂ (HitsAt
        (fun n => if n = encodeId 1 0 0 0 1 then some (encodeId 2 0 0 0 1) else none) 2)
        [encodeId 1 0 0 0 1] res :=
  C5_get_roots_amended
    (fun n => if n = encodeId 1 0 0 0 1 then some (encodeId 2 0 0 0 1) else none)
    2 [encodeId 1 0 0 0 1] 1 (by decide)
    ⟨encodeId 1 0 0 0 1, by decide, by decide⟩
    (by
      intro n q h
      have h2 : (if n = encodeId 1 0 0 0 1 then some (encodeId 2 0 0 0 1)
          else none) = some q := h
      by_cases hn : n = encodeId 1 0 0 0 1
      · rw [if_pos hn] at h2
        cases h2
        rw [hn]
        decide
      · rw [if_neg hn] at h2
        cases h2)
    (by
      intro x hx
      have hx2 : x = encodeId 1 0 0 0 1 := by simpa using hx
      subst hx2
      refine ⟨encodeId 2 0 0 0 1, 1, by decide, by decide, ?_⟩
      intro j hj
      have hj0 : j = 0 := by omega
      subst hj0
      exact ⟨encodeId 1 0 0 0 1, by decide, by decide⟩)

/-- Claim C5 counterexample: a single input at layer 1 whose parent lies at
layer exactly `stop_layer = 2`.  `get_roots` with `ceil=False` returns that
parent, which is at layer 2, not at a layer strictly below `stop_layer` as the
claim asserts. -/
theorem C5_get_roots_counterexample :
    Cg.get_roots
      (fun n => if n = encodeId 1 0 0 0 1 then some (encodeId 2 0 0 0 1) else none)
      2 false [encodeId 1 0 0 0 1] 1 = some [encodeId 2 0 0 0 1] ∧
    ¬ (nodeLayer (encodeId 2 0 0 0 1) < 2) := by
  exact ⟨by decide, by decide⟩

end CgRootProofs

section LegacyProofs

open Legacy

theorem setParent_parent (t : Table) (n v x : Nat) :
    (setParent t n v).parent x = if x = n then some v else t.parent x := rfl

theorem setParent_fields (t : Table) (n v : Nat) :
    (setParent t n v).children = t.children ∧
    (setParent t n v).newParents = t.newParents ∧
    (setParent t n v).formerParents = t.formerParents := ⟨rfl, rfl, rfl⟩

theorem setChildren_parent (t : Table) (n : Nat) (cs : List Nat) (x : Nat) :
    (setChildren t n cs).parent x = t.parent x := rfl

theorem setNewParents_parent (t : Table) (n : Nat) (v : List Nat) (x : Nat) :
    (setNewParents t n v).parent x = t.parent x := rfl

theorem setFormerParents_parent (t : Table) (n : Nat) (v : List Nat) (x : Nat) :
    (setFormerParents t n v).parent x = t.parent x := rfl

theorem addAtomic_parent (t : Table) (n v x : Nat) :
    (addAtomic t n v).parent x = t.parent x := rfl

theorem addAtomic_newParents (t : Table) (n v x : Nat) :
    (addAtomic t n v).newParents x = t.newParents x := rfl

theorem addAtomic_formerParents (t : Table) (n v x : Nat) :
    (addAtomic t n v).formerParents x = t.formerParents x := rfl

theorem foldl_setParent_parent (nid : Nat) :
    ∀ (cs : List Nat) (acc : Table) (x : Nat),
      (cs.foldl (fun a c => setParent a c nid) acc).parent x =
        if x ∈ cs then some nid else acc.parent x := by
  intro cs
  induction cs with
  | nil => intro acc x; simp
  | cons c cs ih =>
      intro acc x
      rw [List.foldl_cons, ih]
      by_cases hx : x ∈ cs
      · rw [if_pos hx, if_pos (by simp [hx])]
      · rw [if_neg hx, setParent_parent]
        by_cases hxc : x = c
        · rw [if_pos hxc, if_pos (by simp [hxc])]
        · rw [if_neg hxc, if_neg (by simp [hxc, hx])]

theorem foldl_setParent_fields (nid : Nat) :
    ∀ (cs : List Nat) (acc : Table),
      (cs.foldl (fun a c => setParent a c nid) acc).children = acc.children ∧
      (cs.foldl (fun a c => setParent a c nid) acc).newParents = acc.newParents ∧
      (cs.foldl (fun a c => setParent a c nid) acc).formerParents =
        acc.formerParents := by
  intro cs
  induction cs with
  | nil => intro acc; exact ⟨rfl, rfl, rfl⟩
  | cons c cs ih =>
      intro acc
      rw [List.foldl_cons]
      exact ih (setParent acc c nid)

theorem get_root_mono (t : Table) :
    ∀ (f : Nat) (n r : Nat), get_root t f n = some r →
      ∀ g, f ≤ g → get_root t g n = some r := by
  intro f
  induction f with
  | zero => intro n r h; cases h
  | succ f ih =>
      intro n r h g hg
      obtain ⟨g2, rfl⟩ : ∃ g2, g = g2 + 1 := ⟨g - 1, by omega⟩
      rw [get_root] at h ⊢
      cases hp : t.parent n with
      | none => rw [hp] at h; exact h
      | some q =>
          rw [hp] at h
          exact ih q r h g2 (by omega)

theorem terminal_writes (acc2 : Table) (r1 r2 nid : Nat) :
    (setNewParents (setNewParents (setFormerParents acc2 nid [r1, r2]) r1 [nid])
      r2 [nid]).newParents r1 = some [nid] ∧
    (setNewParents (setNewParents (setFormerParents acc2 nid [r1, r2]) r1 [nid])
      r2 [nid]).newParents r2 = some [nid] ∧
    (setNewParents (setNewParents (setFormerParents acc2 nid [r1, r2]) r1 [nid])
      r2 [nid]).formerParents nid = some [r1, r2] := by
  by_cases h12 : r1 = r2 <;> simp [setNewParents, setFormerParents, h12]

theorem mergeLoop_final (t : Table) (r1 r2 ca cb : Nat) :
    ∀ (fuel : Nat) (acc : Table) (pq : Nat × Nat) (supply : List Nat) (nid : Nat)
      (t2 : Table) (r3 : Nat),
      mergeLoop t r1 r2 ca cb fuel acc pq supply nid = some (t2, r3) →
      t2.newParents r1 = some [r3] ∧ t2.newParents r2 = some [r3] ∧
      t2.formerParents r3 = some [r1, r2] ∧ r3 ∈ nid :: supply := by
  intro fuel
  induction fuel with
  | zero => intro acc pq supply nid t2 r3 h; cases h
  | succ fuel ih =>
      intro acc pq supply nid t2 r3 h
      cases hpa : t.parent pq.1 with
      | none =>
          simp only [mergeLoop, hpa, Option.some.injEq, Prod.mk.injEq] at h
          obtain ⟨ht, hr⟩ := h
          subst ht
          subst hr
          obtain ⟨w1, w2, w3⟩ := terminal_writes _ r1 r2 nid
          exact ⟨w1, w2, w3, by simp⟩
      | some pa =>
          cases hpb : t.parent pq.2 with
          | none =>
              simp only [mergeLoop, hpa, hpb, Option.some.injEq, Prod.mk.injEq] at h
              obtain ⟨ht, hr⟩ := h
              subst ht
              subst hr
              obtain ⟨w1, w2, w3⟩ := terminal_writes _ r1 r2 nid
              exact ⟨w1, w2, w3, by simp⟩
          | some pb =>
              simp only [mergeLoop, hpa, hpb] at h
              cases supply with
              | nil => cases h
              | cons nid2 rest =>
                  obtain ⟨w1, w2, w3, w4⟩ := ih _ _ _ _ _ _ h
                  exact ⟨w1, w2, w3, List.mem_cons_of_mem nid w4⟩

theorem processed_cons_some (t : Table) (fuel : Nat) (pq : Nat × Nat) (pa pb : Nat)
    (hpa : t.parent pq.1 = some pa) (hpb : t.parent pq.2 = some pb) :
    processed t (fuel + 1) pq = pq.1 :: pq.2 :: processed t fuel (pa, pb) := by
  simp [processed, hpa, hpb]

theorem processed_head (t : Table) (fuel : Nat) (pq : Nat × Nat) :
    pq.1 ∈ processed t (fuel + 1) pq ∧ pq.2 ∈ processed t (fuel + 1) pq := by
  rw [processed]
  exact ⟨List.mem_cons_self _ _, List.mem_cons_of_mem _ (List.mem_cons_self _ _)⟩

theorem mergeLoop_parent_frozen (t : Table) (r1 r2 ca cb : Nat)
    (Hcc : ∀ n c, c ∈ t.children n → t.parent c = some n) (x : Nat) :
    ∀ (fuel : Nat) (acc : Table) (pq : Nat × Nat) (supply : List Nat) (nid : Nat)
      (t2 : Table) (r3 : Nat),
      mergeLoop t r1 r2 ca cb fuel acc pq supply nid = some (t2, r3) →
      x ∉ nid :: supply →
      (∀ w, t.parent x = some w → w ∉ processed t fuel pq) →
      t2.parent x = acc.parent x := by
  intro fuel
  induction fuel with
  | zero => intro acc pq supply nid t2 r3 h _ _; cases h
  | succ fuel ih =>
      intro acc pq supply nid t2 r3 h hx hw
      have hxcs : x ∉
          ((t.children pq.1).filter fun c => !(c = ca : Bool) && !(c = cb : Bool)) ++
          ((t.children pq.2).filter fun c => !(c = ca : Bool) && !(c = cb : Bool)) := by
        intro hmem
        rcases List.mem_append.mp hmem with hm | hm
        · exact hw pq.1 (Hcc pq.1 x (List.mem_of_mem_filter hm))
            (processed_head t fuel pq).1
        · exact hw pq.2 (Hcc pq.2 x (List.mem_of_mem_filter hm))
            (processed_head t fuel pq).2
      have hxnid : x ≠ nid := by
        intro he
        exact hx (by simp [he])
      cases hpa : t.parent pq.1 with
      | none =>
          simp only [mergeLoop, hpa, Option.some.injEq, Prod.mk.injEq] at h
          obtain ⟨ht, -⟩ := h
          subst ht
          rw [setNewParents_parent, setNewParents_parent, setFormerParents_parent,
            setChildren_parent, foldl_setParent_parent, if_neg hxcs]
      | some pa =>
          cases hpb : t.parent pq.2 with
          | none =>
              simp only [mergeLoop, hpa, hpb, Option.some.injEq, Prod.mk.injEq] at h
              obtain ⟨ht, -⟩ := h
              subst ht
              rw [setNewParents_parent, setNewParents_parent, setFormerParents_parent,
                setChildren_parent, foldl_setParent_parent, if_neg hxcs]
          | some pb =>
              simp only [mergeLoop, hpa, hpb] at h
              cases supply with
              | nil => cases h
              | cons nid2 rest =>
                  have hx2 : x ∉ nid2 :: rest := fun hm =>
                    hx (List.mem_cons_of_mem _ hm)
                  have hw2 : ∀ w, t.parent x = some w →
                      w ∉ processed t fuel (pa, pb) := by
                    intro w hwp hmem
                    refine hw w hwp ?_
                    rw [processed_cons_some t fuel pq pa pb hpa hpb]
                    exact List.mem_cons_of_mem _ (List.mem_cons_of_mem _ hmem)
                  have ht2 := ih _ _ _ _ _ _ h hx2 hw2
                  rw [ht2, setParent_parent, if_neg hxnid, setChildren_parent,
                    foldl_setParent_parent, if_neg hxcs]

theorem mergeLoop_repoint (t : Table) (r1 r2 ca cb : Nat)
    (Hcc : ∀ n c, c ∈ t.children n → t.parent c = some n) (x : Nat) :
    ∀ (fuel : Nat) (acc : Table) (pq : Nat × Nat) (supply : List Nat) (nid : Nat)
      (t2 : Table) (r3 : Nat),
      mergeLoop t r1 r2 ca cb fuel acc pq supply nid = some (t2, r3) →
      (processed t fuel pq).Nodup →
      x ∈ ((t.children pq.1).filter fun c => !(c = ca : Bool) && !(c = cb : Bool)) ++
          ((t.children pq.2).filter fun c => !(c = ca : Bool) && !(c = cb : Bool)) →
      x ∉ nid :: supply →
      t2.parent x = some nid := by
  intro fuel
  cases fuel with
  | zero => intro acc pq supply nid t2 r3 h _ _ _; cases h
  | succ fuel =>
      intro acc pq supply nid t2 r3 h hnd hmem hx
      have hxnid : x ≠ nid := by
        intro he
        exact hx (by simp [he])
      cases hpa : t.parent pq.1 with
      | none =>
          simp only [mergeLoop, hpa, Option.some.injEq, Prod.mk.injEq] at h
          obtain ⟨ht, -⟩ := h
          subst ht
          rw [setNewParents_parent, setNewParents_parent, setFormerParents_parent,
            setChildren_parent, foldl_setParent_parent, if_pos hmem]
      | some pa =>
          cases hpb : t.parent pq.2 with
          | none =>
              simp only [mergeLoop, hpa, hpb, Option.some.injEq, Prod.mk.injEq] at h
              obtain ⟨ht, -⟩ := h
              subst ht
              rw [setNewParents_parent, setNewParents_parent, setFormerParents_parent,
                setChildren_parent, foldl_setParent_parent, if_pos hmem]
          | some pb =>
              simp only [mergeLoop, hpa, hpb] at h
              cases supply with
              | nil => cases h
              | cons nid2 rest =>
                  rw [processed_cons_some t fuel pq pa pb hpa hpb] at hnd
                  obtain ⟨hn1, hn2⟩ := List.nodup_cons.mp hnd
                  obtain ⟨hn3, -⟩ := List.nodup_cons.mp hn2
                  have hp1 : pq.1 ∉ processed t fuel (pa, pb) := fun hm =>
                    hn1 (List.mem_cons_of_mem _ hm)
                  have hx2 : x ∉ nid2 :: rest := fun hm =>
                    hx (List.mem_cons_of_mem _ hm)
                  have hw2 : ∀ w, t.parent x = some w →
                      w ∉ processed t fuel (pa, pb) := by
                    intro w hwp hmemw
                    rcases List.mem_append.mp hmem with hm | hm
                    · have hpx := Hcc pq.1 x (List.mem_of_mem_filter hm)
                      rw [hpx] at hwp
                      cases hwp
                      exact hp1 hmemw
                    · have hpx := Hcc pq.2 x (List.mem_of_mem_filter hm)
                      rw [hpx] at hwp
                      cases hwp
                      exact hn3 hmemw
                  have ht2 := mergeLoop_parent_frozen t r1 r2 ca cb Hcc x fuel
                    _ _ _ _ _ _ h hx2 hw2
                  rw [ht2, setParent_parent, if_neg hxnid, setChildren_parent,
                    foldl_setParent_parent, if_pos hmem]

theorem mergeLoop_newchain (t : Table) (r1 r2 ca cb : Nat)
    (Hcc : ∀ n c, c ∈ t.children n → t.parent c = some n) :
    ∀ (fuel : Nat) (acc : Table) (pq : Nat × Nat) (supply : List Nat) (nid : Nat)
      (t2 : Table) (r3 : Nat),
      mergeLoop t r1 r2 ca cb fuel acc pq supply nid = some (t2, r3) →
      (∀ s ∈ nid :: supply, t.parent s = none ∧ ∀ n, s ∉ t.children n) →
      (nid :: supply).Nodup →
      (∀ s ∈ nid :: supply, acc.parent s = none) →
      ∃ f, get_root t2 f nid = some r3 := by
  intro fuel
  induction fuel with
  | zero => intro acc pq supply nid t2 r3 h _ _ _; cases h
  | succ fuel ih =>
      intro acc pq supply nid t2 r3 h hfr hnd hacc
      have hnidcs : nid ∉
          ((t.children pq.1).filter fun c => !(c = ca : Bool) && !(c = cb : Bool)) ++
          ((t.children pq.2).filter fun c => !(c = ca : Bool) && !(c = cb : Bool)) := by
        intro hm
        rcases List.mem_append.mp hm with hm2 | hm2
        · exact (hfr nid (List.mem_cons_self _ _)).2 pq.1 (List.mem_of_mem_filter hm2)
        · exact (hfr nid (List.mem_cons_self _ _)).2 pq.2 (List.mem_of_mem_filter hm2)
      cases hpa : t.parent pq.1 with
      | none =>
          simp only [mergeLoop, hpa, Option.some.injEq, Prod.mk.injEq] at h
          obtain ⟨ht, hr⟩ := h
          refine ⟨1, ?_⟩
          rw [← ht, ← hr, get_root, setNewParents_parent, setNewParents_parent,
            setFormerParents_parent, setChildren_parent, foldl_setParent_parent,
            if_neg hnidcs, hacc nid (List.mem_cons_self _ _)]
      | some pa =>
          cases hpb : t.parent pq.2 with
          | none =>
              simp only [mergeLoop, hpa, hpb, Option.some.injEq, Prod.mk.injEq] at h
              obtain ⟨ht, hr⟩ := h
              refine ⟨1, ?_⟩
              rw [← ht, ← hr, get_root, setNewParents_parent, setNewParents_parent,
                setFormerParents_parent, setChildren_parent, foldl_setParent_parent,
                if_neg hnidcs, hacc nid (List.mem_cons_self _ _)]
          | some pb =>
              simp only [mergeLoop, hpa, hpb] at h
              cases supply with
              | nil => cases h
              | cons nid2 rest =>
                  have hnidtail : nid ∉ nid2 :: rest := (List.nodup_cons.mp hnd).1
                  have hfr2 : ∀ s ∈ nid2 :: rest,
                      t.parent s = none ∧ ∀ n, s ∉ t.children n := fun s hs =>
                    hfr s (List.mem_cons_of_mem _ hs)
                  have hnd2 : (nid2 :: rest).Nodup := (List.nodup_cons.mp hnd).2
                  have hacc2 : ∀ s ∈ nid2 :: rest,
                      (setParent (setChildren (List.foldl
                        (fun a c => setParent a c nid) acc
                        (((t.children pq.1).filter fun c =>
                            !(c = ca : Bool) && !(c = cb : Bool)) ++
                          ((t.children pq.2).filter fun c =>
                            !(c = ca : Bool) && !(c = cb : Bool)))) nid
                        (((t.children pq.1).filter fun c =>
                            !(c = ca : Bool) && !(c = cb : Bool)) ++
                          ((t.children pq.2).filter fun c =>
                            !(c = ca : Bool) && !(c = cb : Bool)))) nid nid2).parent s =
                      none := by
                    intro s hs
                    have hsnid : s ≠ nid := by
                      intro he
                      exact hnidtail (he ▸ hs)
                    have hscs : s ∉
                        ((t.children pq.1).filter fun c =>
                          !(c = ca : Bool) && !(c = cb : Bool)) ++
                        ((t.children pq.2).filter fun c =>
                          !(c = ca : Bool) && !(c = cb : Bool)) := by
                      intro hm
                      rcases List.mem_append.mp hm with hm2 | hm2
                      · exact (hfr2 s hs).2 pq.1 (List.mem_of_mem_filter hm2)
                      · exact (hfr2 s hs).2 pq.2 (List.mem_of_mem_filter hm2)
                    rw [setParent_parent, if_neg hsnid, setChildren_parent,
                      foldl_setParent_parent, if_neg hscs]
                    exact hacc s (List.mem_cons_of_mem _ hs)
                  obtain ⟨f, hf⟩ := ih _ _ _ _ _ _ h hfr2 hnd2 hacc2
                  have hwvac : ∀ w, t.parent nid = some w →
                      w ∉ processed t fuel (pa, pb) := by
                    intro w hwp
                    rw [(hfr nid (List.mem_cons_self _ _)).1] at hwp
                    cases hwp
                  have hfrozen := mergeLoop_parent_frozen t r1 r2 ca cb Hcc nid fuel
                    _ _ _ _ _ _ h hnidtail hwvac
                  have hpar : t2.parent nid = some nid2 := by
                    rw [hfrozen, setParent_parent, if_pos rfl]
                  refine ⟨f + 1, ?_⟩
                  rw [get_root, hpar]
                  exact hf

theorem mergeLoop_path_root (t : Table) (r1 r2 ca cb : Nat)
    (Hcc : ∀ n c, c ∈ t.children n → t.parent c = some n)
    (Hcc2 : ∀ n c, t.parent c = some n → c ∈ t.children n)
    (fuel : Nat) (supply : List Nat) (nid : Nat) (t2 : Table) (r3 : Nat)
    (h : mergeLoop t r1 r2 ca cb fuel t (ca, cb) supply nid = some (t2, r3))
    (hfr : ∀ s ∈ nid :: supply, t.parent s = none ∧ ∀ n, s ∉ t.children n)
    (hnd : (nid :: supply).Nodup)
    (hndP : (processed t fuel (ca, cb)).Nodup) :
    ∀ (ys : List Nat) (x : Nat), (PathTo t x ys ca ∨ PathTo t x ys cb) →
      (∀ y ∈ x :: ys, y ∉ processed t fuel (ca, cb)) →
      ∃ f, get_root t2 f x = some r3 := by
  obtain ⟨fuel2, rfl⟩ : ∃ fuel2, fuel = fuel2 + 1 := by
    cases fuel with
    | zero => cases h
    | succ fuel2 => exact ⟨fuel2, rfl⟩
  have hcain : ca ∈ processed t (fuel2 + 1) (ca, cb) :=
    (processed_head t fuel2 (ca, cb)).1
  have hcbin : cb ∈ processed t (fuel2 + 1) (ca, cb) :=
    (processed_head t fuel2 (ca, cb)).2
  intro ys
  induction ys with
  | nil =>
      intro x hp0 hsep
      have hp : t.parent x = some ca ∨ t.parent x = some cb := by
        rcases hp0 with hp0 | hp0
        · exact Or.inl hp0
        · exact Or.inr hp0
      have hxs : x ∉ nid :: supply := by
        intro hm
        rcases hp with hp | hp <;> · rw [(hfr x hm).1] at hp; cases hp
      have hxca : x ≠ ca := by
        intro he
        exact hsep x (List.mem_cons_self _ _) (he ▸ hcain)
      have hxcb : x ≠ cb := by
        intro he
        exact hsep x (List.mem_cons_self _ _) (he ▸ hcbin)
      have hmem : x ∈
          ((t.children (ca, cb).1).filter fun c =>
            !(c = ca : Bool) && !(c = cb : Bool)) ++
          ((t.children (ca, cb).2).filter fun c =>
            !(c = ca : Bool) && !(c = cb : Bool)) := by
        rcases hp with hp | hp
        · refine List.mem_append_left _ (List.mem_filter.mpr ⟨Hcc2 ca x hp, ?_⟩)
          simp [hxca, hxcb]
        · refine List.mem_append_right _ (List.mem_filter.mpr ⟨Hcc2 cb x hp, ?_⟩)
          simp [hxca, hxcb]
      have hrep := mergeLoop_repoint t r1 r2 ca cb Hcc x (fuel2 + 1)
        _ _ _ _ _ _ h hndP hmem hxs
      obtain ⟨f, hf⟩ := mergeLoop_newchain t r1 r2 ca cb Hcc (fuel2 + 1)
        _ _ _ _ _ _ h hfr hnd (fun s hs => (hfr s hs).1)
      refine ⟨f + 1, ?_⟩
      rw [get_root, hrep]
      exact hf
  | cons y ys ih =>
      intro x hp hsep
      have hp1 : t.parent x = some y := by
        rcases hp with hp | hp <;> exact hp.1
      have hp2 : PathTo t y ys ca ∨ PathTo t y ys cb := by
        rcases hp with hp | hp
        · exact Or.inl hp.2
        · exact Or.inr hp.2
      have hxs : x ∉ nid :: supply := by
        intro hm
        rw [(hfr x hm).1] at hp1
        cases hp1
      have hw : ∀ w, t.parent x = some w →
          w ∉ processed t (fuel2 + 1) (ca, cb) := by
        intro w hwp
        rw [hp1] at hwp
        cases hwp
        exact hsep y (List.mem_cons_of_mem _ (List.mem_cons_self _ _))
      have hfrozen := mergeLoop_parent_frozen t r1 r2 ca cb Hcc x (fuel2 + 1)
        _ _ _ _ _ _ h hxs hw
      obtain ⟨f, hf⟩ := ih y hp2
        (fun z hz => hsep z (List.mem_cons_of_mem _ hz))
      refine ⟨f + 1, ?_⟩
      rw [get_root, hfrozen, hp1]
      exact hf

theorem get_root_addAtomic (t : Table) (n v : Nat) :
    ∀ (f x : Nat), get_root (addAtomic t n v) f x = get_root t f x := by
  intro f
  induction f with
  | zero => intro x; rfl
  | succ f ih =>
      intro x
      rw [get_root, get_root, addAtomic_parent]
      cases t.parent x with
      | none => rfl
      | some q => exact ih q

/-- Claim C1: a successful legacy `add_edge(u, v)` on supervoxels whose
current roots `r1` and `r2` are distinct yields a single new root `r3`:
afterwards the root walk from both `u` and `v` ends at `r3`, `r3` is one of
the freshly allocated ids (so unused before and different from `r1` and `r2`),
the rows of `r1` and `r2` receive `new_parents = [r3]`, and `r3` records
`former_parents = [r1, r2]`.  The hypotheses state the well-formedness the
source relies on: parent chains of `u` and `v` reach the same-chunk ancestors
`a` and `b` without touching the merged ancestor chains, parent and children
cells are mutually consistent, the allocated ids are fresh, and the two
ancestor chains have no repeated nodes. -/
theorem C1_add_edge_merge_roots (t : Legacy.Table)
    (u v p0 p1 a b r1 r2 nid0 : Nat) (supply : List Nat) (fuel : Nat)
    (t2 : Legacy.Table) (r3 : Nat) (ys zs : List Nat)
    (h1 : t.parent u = some p0) (h2 : t.parent v = some p1)
    (h3 : walkSame t fuel (p0, p1) = some (a, b))
    (h4 : get_root t fuel a = some r1)
    (h5 : get_root t fuel b = some r2)
    (h6 : r1 ≠ r2)
    (hE : add_edge t u v (nid0 :: supply) fuel = some (t2, r3))
    (Hcc : ∀ n c, c ∈ t.children n → t.parent c = some n)
    (Hcc2 : ∀ n c, t.parent c = some n → c ∈ t.children n)
    (Hfr : ∀ s ∈ nid0 :: supply,
      t.parent s = none ∧ (∀ n, s ∉ t.children n) ∧ s ≠ r1 ∧ s ≠ r2)
    (Hnd : (nid0 :: supply).Nodup)
    (HndP : (processed t fuel (a, b)).Nodup)
    (hyU : PathTo t u ys a) (hyV : PathTo t v zs b)
    (HsepU : ∀ y ∈ u :: ys, y ∉ processed t fuel (a, b))
    (HsepV : ∀ z ∈ v :: zs, z ∉ processed t fuel (a, b)) :
    (∃ f, get_root t2 f u = some r3 ∧ get_root t2 f v = some r3) ∧
    r3 ≠ r1 ∧ r3 ≠ r2 ∧ r3 ∈ nid0 :: supply ∧
    t2.newParents r1 = some [r3] ∧ t2.newParents r2 = some [r3] ∧
    t2.formerParents r3 = some [r1, r2] := by
  simp only [add_edge, h1, h2, h3, h4, h5] at hE
  cases hM : mergeLoop t r1 r2 a b fuel t (a, b) supply nid0 with
  | none =>
      rw [hM] at hE
      cases hE
  | some tr =>
      obtain ⟨t3, r4⟩ := tr
      rw [hM] at hE
      simp only [Option.some.injEq, Prod.mk.injEq] at hE
      obtain ⟨ht2, hr3⟩ := hE
      subst ht2
      subst hr3
      have hfr2 : ∀ s ∈ nid0 :: supply,
          t.parent s = none ∧ ∀ n, s ∉ t.children n := fun s hs =>
        ⟨(Hfr s hs).1, (Hfr s hs).2.1⟩
      obtain ⟨wn1, wn2, wn3, wn4⟩ :=
        mergeLoop_final t r1 r2 a b fuel t (a, b) supply nid0 t3 r4 hM
      obtain ⟨fu, hfu⟩ := mergeLoop_path_root t r1 r2 a b Hcc Hcc2 fuel supply
        nid0 t3 r4 hM hfr2 Hnd HndP ys u (Or.inl hyU) HsepU
      obtain ⟨fv, hfv⟩ := mergeLoop_path_root t r1 r2 a b Hcc Hcc2 fuel supply
        nid0 t3 r4 hM hfr2 Hnd HndP zs v (Or.inr hyV) HsepV
      refine ⟨⟨max fu fv, ?_, ?_⟩, (Hfr r4 wn4).2.2.1, (Hfr r4 wn4).2.2.2,
        wn4, ?_, ?_, ?_⟩
      · rw [get_root_addAtomic, get_root_addAtomic]
        exact get_root_mono t3 fu u r4 hfu (max fu fv) (Nat.le_max_left _ _)
      · rw [get_root_addAtomic, get_root_addAtomic]
        exact get_root_mono t3 fv v r4 hfv (max fu fv) (Nat.le_max_right _ _)
      · rw [addAtomic_newParents, addAtomic_newParents]
        exact wn1
      · rw [addAtomic_newParents, addAtomic_newParents]
        exact wn2
      · rw [addAtomic_formerParents, addAtomic_formerParents]
        exact wn3

theorem C1_add_edge_merge_roots_witness :
    (∃ f, get_root exT2 f 1 = some 100 ∧ get_root exT2 f 2 = some 100) ∧
    (100 : Nat) ≠ 5 * 2 ^ 32 + 1 ∧ (100 : Nat) ≠ 5 * 2 ^ 32 + 2 ∧
    100 ∈ [100] ∧
    exT2.newParents (5 * 2 ^ 32 + 1) = some [100] ∧
    exT2.newParents (5 * 2 ^ 32 + 2) = some [100] ∧
    exT2.formerParents 100 = some [5 * 2 ^ 32 + 1, 5 * 2 ^ 32 + 2] := by
  have hcc : ∀ n c, c ∈ exT.children n → exT.parent c = some n := by
    intro n c hc
    have hch : exT.children n = if n = 5 * 2 ^ 32 + 1 then [1]
        else if n = 5 * 2 ^ 32 + 2 then [2] else [] := rfl
    rw [hch] at hc
    split_ifs at hc with hA hB
    · subst hA
      have hc1 : c = 1 := by simpa using hc
      subst hc1
      decide
    · subst hB
      have hc2 : c = 2 := by simpa using hc
      subst hc2
      decide
    · simp at hc
  have hcc2 : ∀ n c, exT.parent c = some n → c ∈ exT.children n := by
    intro n c h
    have h2 : (if c = 1 then some (5 * 2 ^ 32 + 1)
        else if c = 2 then some (5 * 2 ^ 32 + 2) else none) = some n := h
    split_ifs at h2 with hc1 hc2
    · cases h2
      subst hc1
      decide
    · cases h2
      subst hc2
      decide
  have hfr : ∀ s ∈ [100], exT.parent s = none ∧ (∀ n, s ∉ exT.children n) ∧
      s ≠ 5 * 2 ^ 32 + 1 ∧ s ≠ 5 * 2 ^ 32 + 2 := by
    intro s hs
    have hs1 : s = 100 := by simpa using hs
    subst hs1
    refine ⟨by decide, ?_, by decide, by decide⟩
    intro n
    have hch : exT.children n = if n = 5 * 2 ^ 32 + 1 then [1]
        else if n = 5 * 2 ^ 32 + 2 then [2] else [] := rfl
    rw [hch]
    split_ifs <;> decide
  exact C1_add_edge_merge_roots exT 1 2 (5 * 2 ^ 32 + 1) (5 * 2 ^ 32 + 2)
    (5 * 2 ^ 32 + 1) (5 * 2 ^ 32 + 2) (5 * 2 ^ 32 + 1) (5 * 2 ^ 32 + 2) 100 []
    3 exT2 100 [] []
    (by decide) (by decide) (by decide) (by decide) (by decide) (by decide)
    rfl hcc hcc2 hfr (by decide) (by decide)
    (by exact (by decide : exT.parent 1 = some (5 * 2 ^ 32 + 1)))
    (by exact (by decide : exT.parent 2 = some (5 * 2 ^ 32 + 2)))
    (by decide) (by decide)

end LegacyProofs

end PCG
